import Mathlib

/-!
Verification of tewisay: bubble renderer and figure template engine.

A shallow embedding of `main.go` and `borders.go`.

Modelling conventions.

* A Go string that is valid UTF-8 is modelled by the sequence of its code
  points, `List Char`.  The two bytes the program inspects individually
  (`0x1b` and `m`) are ASCII, so a byte index scan over valid UTF-8 and a
  scan over code points see the same occurrences.
* `runewidth.RuneWidth` belongs to an external library; it is a parameter
  `rw : Char → Int` of every function that measures.
* Go `int` is modelled by `Int`; widths are bounded by twice the input
  length, far from the 64-bit range.
* `bytes.Buffer` is modelled by its content; `WriteString` appends.
* A `for` loop whose exit depends on a measured step takes a fuel argument
  and yields `none` when the fuel runs out.
-/

namespace Tewisay

/-! ## borders.go -/

/-- The ten positions of a border style (`borderIndex` with its constants). -/
inductive borderIndex
  | borderTopLeft
  | borderTop
  | borderTopRight
  | borderLeft
  | borderMiddle
  | borderRight
  | borderBottomLeft
  | borderBottom
  | borderBottomRight
  | borderLine
  deriving DecidableEq, Repr

open borderIndex

/-- Go `type borderStyle [10]string`: one string per index. -/
abbrev borderStyle := borderIndex → List Char

/-- Array literal of ten strings, in index order. -/
def mkStyle (tl t tr l m r bl b br ln : String) : borderStyle
  | borderTopLeft => tl.toList
  | borderTop => t.toList
  | borderTopRight => tr.toList
  | borderLeft => l.toList
  | borderMiddle => m.toList
  | borderRight => r.toList
  | borderBottomLeft => bl.toList
  | borderBottom => b.toList
  | borderBottomRight => br.toList
  | borderLine => ln.toList

def styleSay : borderStyle :=
  mkStyle " " "_" " " "|" " " "|" " " "─" " " "\\"

def styleClassicish : borderStyle :=
  mkStyle " " "_" " " "<" " " ">" " " "-" " " "\\"

def styleThink : borderStyle :=
  mkStyle " " "_" " " "(" " " ")" " " "─" " " "o"

def styleUnicode : borderStyle :=
  mkStyle "┌" "─" "┐" "│" " " "│" "└" "─" "┘" "╲"

def styleThick : borderStyle :=
  mkStyle "┏" "━" "┓" "┃" " " "┃" "┗" "━" "┛" "╲"

def styleRounded : borderStyle :=
  mkStyle "╭" "─" "╮" "│" " " "│" "╰" "─" "╯" "╲"

/-- The map `borderStyles`, as a lookup by name. -/
def borderStyles (name : String) : Option borderStyle :=
  if name = "say" then some styleSay
  else if name = "classicish" then some styleClassicish
  else if name = "think" then some styleThink
  else if name = "unicode" then some styleUnicode
  else if name = "thick" then some styleThick
  else if name = "rounded" then some styleRounded
  else none

/-- The keys of `borderStyles`. -/
def styleNames : List String :=
  ["say", "classicish", "think", "unicode", "thick", "rounded"]

/-! ## main.go: widthANSI -/

/-- The escape introducer `'\x1b'`. -/
def ESC : Char := Char.ofNat 27

/-- One iteration of the `range` loop of `widthANSI` on the state `(a, w)`. -/
def widthStep (rw : Char → Int) (st : Bool × Int) (r : Char) : Bool × Int :=
  let a := if r = ESC then true else st.1
  if a then
    (if r = 'm' then false else a, st.2)
  else
    let c := rw r
    (a, if c ≠ -1 then st.2 + c else st.2)

/-- Final loop state of `widthANSI` started from `st`. -/
def widthLoop (rw : Char → Int) (st : Bool × Int) (s : List Char) : Bool × Int :=
  s.foldl (widthStep rw) st

def widthANSI (rw : Char → Int) (s : List Char) : Int :=
  (widthLoop rw (false, 0) s).2

/-! ## main.go: escCont -/

/-- Go `strings.LastIndex(s, c)` for a one-character needle; `none` is `-1`. -/
def lastIndex (c : Char) : List Char → Option Nat
  | [] => none
  | x :: xs =>
    match lastIndex c xs with
    | some i => some (i + 1)
    | none => if x = c then some 0 else none

/-- The loop `for j := i; j < len(s); j++` of `escCont`; the first argument is
the number of iterations left, `len(s) - j`. -/
def escLoop (s : List Char) (i : Nat) : Nat → Nat → List Char
  | 0, _ => s.drop i
  | n + 1, j =>
    if s.get? j = some 'm' then (s.take (j + 1)).drop i
    else escLoop s i n (j + 1)

def escCont (s : List Char) : List Char :=
  match lastIndex ESC s with
  | none => []
  | some i => escLoop s i (s.length - i) i

/-! ## main.go: say -/

/-- The loop `for i := 0; i < bound; i += step { w.WriteString(g) }`, entered
with counter `i` and buffer `w`. -/
def tile (g : List Char) (bound step : Int) : Nat → Int → List Char → Option (List Char)
  | 0, _, _ => none
  | fuel + 1, i, w =>
    if i < bound then tile g bound step fuel (i + step) (w ++ g) else some w

/-- The first loop of `say`: the largest `widthANSI` of a line, from 0. -/
def maxWidth (rw : Char → Int) (lines : List (List Char)) : Int :=
  lines.foldl (fun max l => let w := widthANSI rw l; if w > max then w else max) 0

/-- The style reset written after a resumed row. -/
def resetSeq : List Char := ESC :: "[0m".toList

/-- The second loop of `say`, one content row per line, with carry `esc`. -/
def sayRows (rw : Char → Int) (b : borderStyle) (max ml : Int) (fuel : Nat) :
    List (List Char) → List Char → List Char → Option (List Char)
  | [], _, w => some w
  | line :: rest, esc, w =>
    let w1 := w ++ esc
    let w2 := w1 ++ b borderLeft
    let w3 := w2 ++ b borderMiddle
    let w4 := w3 ++ line
    let l := widthANSI rw line - ml
    match tile (b borderMiddle) (max - l) ml fuel 0 w4 with
    | none => none
    | some w5 =>
      let w6 := w5 ++ b borderRight
      let w7 := if esc ≠ [] then w6 ++ resetSeq else w6
      let w8 := w7 ++ ['\n']
      sayRows rw b max ml fuel rest (escCont line) w8

/-- Go `say(w, b, lines)`: the buffer after the call, `none` when a loop
exhausts the fuel. -/
def say (rw : Char → Int) (fuel : Nat) (w : List Char) (b : borderStyle)
    (lines : List (List Char)) : Option (List Char) :=
  let max := maxWidth rw lines
  let ml := widthANSI rw (b borderMiddle)
  let maxp := max + ml * 2
  let w1 := w ++ b borderTopLeft
  let tl := widthANSI rw (b borderTop)
  match tile (b borderTop) maxp tl fuel 0 w1 with
  | none => none
  | some w2 =>
    let w3 := w2 ++ b borderTopRight
    let w4 := w3 ++ ['\n']
    match sayRows rw b max ml fuel lines [] w4 with
    | none => none
    | some w5 =>
      let w6 := w5 ++ b borderBottomLeft
      let bl := widthANSI rw (b borderBottom)
      match tile (b borderBottom) maxp bl fuel 0 w6 with
      | none => none
      | some w7 => some (w7 ++ b borderBottomRight)

/-! ## main.go: tewi -/

/-- Go `strings.HasPrefix`. -/
def hasPrefix (s p : List Char) : Bool := p.isPrefixOf s

/-- The condition of the `continue` in the first loop of `tewi`. -/
def isDirective (c : List Char) : Bool :=
  hasPrefix c "$the_cow".toList || hasPrefix c "#".toList || hasPrefix c "EOC".toList

/-- The first loop of `tewi`: `cowp`. -/
def cowFilter : List (List Char) → List (List Char) → List (List Char)
  | [], cowp => cowp
  | c :: rest, cowp =>
    if isDirective c then cowFilter rest cowp else cowFilter rest (cowp ++ [c])

/-- The argument list of `strings.NewReplacer` in `tewi`. -/
def oldnew (eyes tongue line : List Char) : List (List Char × List Char) :=
  [("$thoughts".toList, line),
   ("\\\\".toList, "\\".toList),
   ("\\@".toList, "@".toList),
   ("eyes".toList, eyes),
   ("tongue".toList, tongue)]

/-- First pair, in argument order, whose old string starts the text. -/
def lookup (pairs : List (List Char × List Char)) (s : List Char) :
    Option (List Char × List Char) :=
  pairs.find? (fun p => p.1.isPrefixOf s)

/-- Go `strings.Replacer` (standard library, documented behaviour):
replacements are performed in the order they appear in the target string,
without overlapping matches, old strings compared in argument order.  All old
strings here are non-empty.  The first argument bounds the scan by the length
of the text. -/
def replaceAux (pairs : List (List Char × List Char)) : Nat → List Char → List Char
  | 0, _ => []
  | _ + 1, [] => []
  | n + 1, c :: cs =>
    match lookup pairs (c :: cs) with
    | some p => p.2 ++ replaceAux pairs n ((c :: cs).drop p.1.length)
    | none => c :: replaceAux pairs n cs

def replace (pairs : List (List Char × List Char)) (s : List Char) : List Char :=
  replaceAux pairs s.length s

/-- The second loop of `tewi`. -/
def tewiWrite (pairs : List (List Char × List Char)) :
    List (List Char) → List Char → List Char
  | [], w => w
  | c :: rest, w => tewiWrite pairs rest ((w ++ ['\n']) ++ replace pairs c)

/-- Go `tewi(w, cow, eyes, tongue, line)`: the buffer after the call. -/
def tewi (w : List Char) (cow : List (List Char)) (eyes tongue line : List Char) :
    List Char :=
  tewiWrite (oldnew eyes tongue line) (cowFilter cow []) w

/-! ## main.go: tewi with its error result -/

/-- Go `(*bytes.Buffer).WriteString` (standard library, documented behaviour):
the text is appended and the returned error is always nil, here `none`. -/
def bufWriteString (w s : List Char) : List Char × Option String :=
  (w ++ s, none)

/-- Go `(*strings.Replacer).WriteString(w, c)` on a buffer: the replaced text
is written to the buffer and the error of the writer is returned. -/
def replacerWriteString (pairs : List (List Char × List Char)) (w c : List Char) :
    List Char × Option String :=
  bufWriteString w (replace pairs c)

/-- The second loop of `tewi` with the check `if err != nil { return err }`;
the result is the buffer and the returned error. -/
def tewiWriteErr (pairs : List (List Char × List Char)) :
    List (List Char) → List Char → List Char × Option String
  | [], w => (w, none)
  | c :: rest, w =>
    let w1 := (bufWriteString w ['\n']).1
    match replacerWriteString pairs w1 c with
    | (w2, some err) => (w2, some err)
    | (w2, none) => tewiWriteErr pairs rest w2

/-- Go `tewi(w, cow, eyes, tongue, line)`: the buffer after the call and the
returned error. -/
def tewiErr (w : List Char) (cow : List (List Char)) (eyes tongue line : List Char) :
    List Char × Option String :=
  tewiWriteErr (oldnew eyes tongue line) (cowFilter cow []) w

/-! ## Width functions used to instantiate the parameter -/

/-- Every rune one column wide. -/
def unitWidth : Char → Int := fun _ => 1

/-- The fullwidth forms `U+FF01..U+FF60` and the ideographic space `U+3000`
two columns wide, every other rune one column wide. -/
def wideWidth : Char → Int := fun c =>
  if c.toNat = 0x3000 ∨ (0xFF01 ≤ c.toNat ∧ c.toNat ≤ 0xFF60) then 2 else 1

/-- The box-drawing runes `U+2500..U+257F` two columns wide (the East Asian
reading of their ambiguous width), every other rune one column wide. -/
def eaWidth : Char → Int := fun c =>
  if 0x2500 ≤ c.toNat ∧ c.toNat ≤ 0x257F then 2 else 1

/-- A style with a one-column top glyph and a two-column bottom glyph. -/
def styleWideBottom : borderStyle :=
  mkStyle "+" "-" "+" "|" " " "|" "+" "＝" "+" "\\"

/-- A style whose middle-fill glyph is the two-column ideographic space. -/
def styleWideFill : borderStyle :=
  mkStyle "+" "-" "+" "|" "　" "|" "+" "-" "+" "\\"

/-! ## Closed forms used to state the results -/

/-- The text `g` written `n` times. -/
def rep : Nat → List Char → List Char
  | 0, _ => []
  | n + 1, g => g ++ rep n g

/-- Number of iterations of `for i; i < bound; i += step` entered at `i`,
counted with at most `f` rounds. -/
def tileCount (bound step : Int) : Nat → Int → Nat
  | 0, _ => 0
  | f + 1, i => if i < bound then tileCount bound step f (i + step) + 1 else 0

/-- Number of iterations of `for i := 0; i < bound; i += step` when `0 < step`. -/
def iters (bound step : Int) : Nat := tileCount bound step bound.toNat 0

/-- Closed form of one content row of `say`, resumed with carry `esc`, without
its line break. -/
def rowBody (rw : Char → Int) (b : borderStyle) (max ml : Int) (esc line : List Char) :
    List Char :=
  esc ++ b borderLeft ++ b borderMiddle ++ line
    ++ rep (iters (max - (widthANSI rw line - ml)) ml) (b borderMiddle)
    ++ b borderRight ++ (if esc ≠ [] then resetSeq else [])

/-- Closed form of one content row of `say` with its line break. -/
def rowText (rw : Char → Int) (b : borderStyle) (max ml : Int) (esc line : List Char) :
    List Char :=
  rowBody rw b max ml esc line ++ ['\n']

/-- The content rows of `say`, one per line, without their line breaks. -/
def rowBodies (rw : Char → Int) (b : borderStyle) (max ml : Int) :
    List (List Char) → List Char → List (List Char)
  | [], _ => []
  | line :: rest, esc =>
    rowBody rw b max ml esc line :: rowBodies rw b max ml rest (escCont line)

/-- The carry with which the row of line `i` is entered: none for the first
line, `escCont` of the line before for the others. -/
def carryAt (lines : List (List Char)) : Nat → List Char
  | 0 => []
  | i + 1 => escCont (lines.getD i [])

/-- The rows written one after the other, each followed by a line break. -/
def joinRows : List (List Char) → List Char
  | [] => []
  | r :: rs => r ++ '\n' :: joinRows rs

/-- Closed form of the top rule of `say`, without its line break. -/
def topRule (rw : Char → Int) (b : borderStyle) (lines : List (List Char)) : List Char :=
  b borderTopLeft
    ++ rep (iters (maxWidth rw lines + widthANSI rw (b borderMiddle) * 2)
        (widthANSI rw (b borderTop))) (b borderTop)
    ++ b borderTopRight

/-- Closed form of the bottom rule of `say`. -/
def bottomRule (rw : Char → Int) (b : borderStyle) (lines : List (List Char)) : List Char :=
  b borderBottomLeft
    ++ rep (iters (maxWidth rw lines + widthANSI rw (b borderMiddle) * 2)
        (widthANSI rw (b borderBottom))) (b borderBottom)
    ++ b borderBottomRight

/-- Closed form of all content rows of `say`. -/
def rowsText (rw : Char → Int) (b : borderStyle) (max ml : Int) :
    List (List Char) → List Char → List Char
  | [], _ => []
  | line :: rest, esc =>
    rowText rw b max ml esc line ++ rowsText rw b max ml rest (escCont line)

/-- Fuel that lets every padding loop of the content rows finish. -/
def rowsFuel (rw : Char → Int) (max ml : Int) : List (List Char) → Nat
  | [] => 0
  | line :: rest =>
    iters (max - (widthANSI rw line - ml)) ml + 1 + rowsFuel rw max ml rest

/-- Closed form of the text written by `say`. -/
def sayText (rw : Char → Int) (b : borderStyle) (lines : List (List Char)) : List Char :=
  topRule rw b lines ++ ['\n']
    ++ rowsText rw b (maxWidth rw lines) (widthANSI rw (b borderMiddle)) lines []
    ++ bottomRule rw b lines

/-- Fuel that lets every loop of `say` finish. -/
def sayFuel (rw : Char → Int) (b : borderStyle) (lines : List (List Char)) : Nat :=
  let max := maxWidth rw lines
  let ml := widthANSI rw (b borderMiddle)
  let maxp := max + ml * 2
  iters maxp (widthANSI rw (b borderTop)) + 1 + rowsFuel rw max ml lines
    + (iters maxp (widthANSI rw (b borderBottom)) + 1)

/-- The text up to and including its first `m`, the whole text when it has none. -/
def takeThrough : List Char → List Char
  | [] => []
  | c :: cs => if c = 'm' then [c] else c :: takeThrough cs

/-- The glyphs of style `unicode` and the letters of `Hello`. -/
def helloRunes : List Char := "┌─┐│ └┘Helo".toList

/-- A style whose top glyph is the empty string, otherwise `unicode`. -/
def styleEmptyTop : borderStyle :=
  mkStyle "┌" "" "┐" "│" " " "│" "└" "─" "┘" "╲"

/-- The six styles of the catalog `borderStyles`. -/
def catalog : List borderStyle :=
  [styleSay, styleClassicish, styleThink, styleUnicode, styleThick, styleRounded]

/-- The runes of the nine frame glyphs of the catalog styles. -/
def catalogRunes : List Char := " _|─<>-()┌┐│└┘┏━┓┃┗┛╭╮╰╯".toList

/-- Every escape introducer of the line is followed, later on the line, by a
terminator `m`. -/
def escTerminated : List Char → Bool
  | [] => true
  | c :: cs => (c != ESC || cs.contains 'm') && escTerminated cs

/-- Go `strings.Split(s, "\n")`: the rows of a text. -/
def splitNL : List Char → List (List Char)
  | [] => [[]]
  | c :: cs =>
    if c = '\n' then [] :: splitNL cs
    else
      match splitNL cs with
      | [] => [[c]]
      | r :: rs => (c :: r) :: rs

/-- The concatenation, in order, of a line break followed by the substituted
text of each line. -/
def figure (pairs : List (List Char × List Char)) : List (List Char) → List Char
  | [] => []
  | c :: rest => '\n' :: (replace pairs c ++ figure pairs rest)

/-- The five tokens replaced by `tewi`, in the argument order of the replacer. -/
inductive Token
  | thoughts
  | backslash
  | atSign
  | eyes
  | tongue
  deriving DecidableEq, Repr

/-- The text of a token in a template line. -/
def Token.text : Token → List Char
  | Token.thoughts => "$thoughts".toList
  | Token.backslash => "\\\\".toList
  | Token.atSign => "\\@".toList
  | Token.eyes => "eyes".toList
  | Token.tongue => "tongue".toList

/-- The text a token is replaced by. -/
def Token.value (eyes tongue line : List Char) : Token → List Char
  | Token.thoughts => line
  | Token.backslash => "\\".toList
  | Token.atSign => "@".toList
  | Token.eyes => eyes
  | Token.tongue => tongue

def allTokens : List Token :=
  [Token.thoughts, Token.backslash, Token.atSign, Token.eyes, Token.tongue]

/-- The token that starts the text, if any. -/
def tokenAt (s : List Char) : Option Token :=
  allTokens.find? (fun k => (Token.text k).isPrefixOf s)

/-- A piece of a template line: an occurrence of a token, or one character
that starts no token. -/
inductive Segment
  | token (k : Token)
  | char (c : Char)
  deriving DecidableEq, Repr

/-- Split of a line, from the left, into token occurrences and the characters
between them; the first argument bounds the scan by the length of the line. -/
def segments : Nat → List Char → List Segment
  | 0, _ => []
  | _ + 1, [] => []
  | n + 1, c :: cs =>
    match tokenAt (c :: cs) with
    | some k => Segment.token k :: segments n ((c :: cs).drop (Token.text k).length)
    | none => Segment.char c :: segments n cs

/-- The pieces put back together. -/
def sourceText : List Segment → List Char
  | [] => []
  | Segment.token k :: r => Token.text k ++ sourceText r
  | Segment.char c :: r => c :: sourceText r

/-- The pieces with each token replaced by its value, the characters copied. -/
def substText (eyes tongue line : List Char) : List Segment → List Char
  | [] => []
  | Segment.token k :: r => Token.value eyes tongue line k ++ substText eyes tongue line r
  | Segment.char c :: r => c :: substText eyes tongue line r

/-- The concatenation of the texts of a list of tokens. -/
def tokensText : List Token → List Char
  | [] => []
  | k :: r => Token.text k ++ tokensText r

/-- The concatenation of the values of a list of tokens. -/
def tokensValue (eyes tongue line : List Char) : List Token → List Char
  | [] => []
  | k :: r => Token.value eyes tongue line k ++ tokensValue eyes tongue line r

/-- The figure of a template whose lines are lists of tokens: a line break and
the values of the tokens of each line, in order. -/
def tokensFigure (eyes tongue line : List Char) : List (List Token) → List Char
  | [] => []
  | l :: r => '\n' :: (tokensValue eyes tongue line l ++ tokensFigure eyes tongue line r)

/-- An item of a style-independent skeleton: a border role or a literal text. -/
inductive Item
  | role (i : borderIndex)
  | lit (s : List Char)
  deriving DecidableEq, Repr

/-- The skeleton with each role replaced by the glyph of style `b`. -/
def render (b : borderStyle) : List Item → List Char
  | [] => []
  | Item.role i :: r => b i ++ render b r
  | Item.lit s :: r => s ++ render b r

/-- Skeleton of the content rows for one-column fill glyphs: carry, left
border, one fill, the line, `max - (width - 1)` fills, right border, the reset
when a carry was resumed, line break. -/
def skelRows (rw : Char → Int) (max : Int) : List (List Char) → List Char → List Item
  | [], _ => []
  | line :: rest, esc =>
    [Item.lit esc, Item.role borderLeft, Item.role borderMiddle, Item.lit line]
      ++ List.replicate (max - (widthANSI rw line - 1)).toNat (Item.role borderMiddle)
      ++ [Item.role borderRight]
      ++ (if esc ≠ [] then [Item.lit resetSeq] else [])
      ++ [Item.lit ['\n']]
      ++ skelRows rw max rest (escCont line)

/-- Skeleton of the whole block for one-column fill glyphs; it mentions no
style. -/
def skeleton (rw : Char → Int) (lines : List (List Char)) : List Item :=
  [Item.role borderTopLeft]
    ++ List.replicate (maxWidth rw lines + 1 * 2).toNat (Item.role borderTop)
    ++ [Item.role borderTopRight, Item.lit ['\n']]
    ++ skelRows rw (maxWidth rw lines) lines []
    ++ [Item.role borderBottomLeft]
    ++ List.replicate (maxWidth rw lines + 1 * 2).toNat (Item.role borderBottom)
    ++ [Item.role borderBottomRight]

/-- The scan of `p` from outside an escape sequence ends outside one. -/
def Closed (rw : Char → Int) (p : List Char) : Prop :=
  (widthLoop rw (false, 0) p).1 = false

/-- The text `p` is measured as `n` columns and leaves the scan outside an
escape sequence. -/
def Meas (rw : Char → Int) (p : List Char) (n : Int) : Prop :=
  Closed rw p ∧ widthANSI rw p = n

/-- Every frame glyph of the style is one column wide, leaves the scan outside
an escape sequence and holds no line break. -/
def UnitStyle (rw : Char → Int) (b : borderStyle) : Prop :=
  ∀ i, i ≠ borderLine → Meas rw (b i) 1 ∧ '\n' ∉ b i

/-- Width contributed by one rune outside an escape sequence. -/
def runeCols (rw : Char → Int) (c : Char) : Int :=
  if rw c = -1 then 0 else rw c

/-! ## Lemmas on the tiling loop -/

theorem tile_eq (g : List Char) (bound step : Int) (hstep : 0 < step) :
    ∀ (f : Nat) (i : Int) (w : List Char), (bound - i).toNat ≤ f →
      ∀ fuel, tileCount bound step f i < fuel →
        tile g bound step fuel i w = some (w ++ rep (tileCount bound step f i) g) := by
  intro f
  induction f with
  | zero =>
    intro i w hf fuel hfuel
    have hi : ¬ i < bound := by omega
    cases fuel with
    | zero => simp [tileCount] at hfuel
    | succ k => simp [tile, tileCount, hi, rep]
  | succ f ih =>
    intro i w hf fuel hfuel
    by_cases hi : i < bound
    · simp only [tileCount, hi, if_true] at hfuel ⊢
      cases fuel with
      | zero => omega
      | succ k =>
        have hk : tileCount bound step f (i + step) < k := by omega
        have hf2 : (bound - (i + step)).toNat ≤ f := by omega
        simp only [tile, hi, if_true]
        rw [ih (i + step) (w ++ g) hf2 k hk]
        simp [rep, List.append_assoc]
    · cases fuel with
      | zero => omega
      | succ k => simp [tile, tileCount, hi, rep]

theorem tile_iters (g : List Char) (bound step : Int) (hstep : 0 < step)
    (w : List Char) (fuel : Nat) (hfuel : iters bound step < fuel) :
    tile g bound step fuel 0 w = some (w ++ rep (iters bound step) g) := by
  unfold iters at hfuel ⊢
  exact tile_eq g bound step hstep bound.toNat 0 w (by simp) fuel hfuel

theorem tile_mono (g : List Char) (bound step : Int) :
    ∀ (fuel : Nat) (i : Int) (w x : List Char), tile g bound step fuel i w = some x →
      ∀ k, tile g bound step (fuel + k) i w = some x := by
  intro fuel
  induction fuel with
  | zero => intro i w x h; simp [tile] at h
  | succ n ih =>
    intro i w x h k
    have e : n + 1 + k = (n + k) + 1 := by omega
    rw [e]
    by_cases hi : i < bound
    · simp only [tile, hi, if_true] at h ⊢
      exact ih _ _ _ h k
    · simp only [tile, hi, if_false] at h ⊢
      exact h

/-- A loop whose step is not positive never leaves once entered. -/
theorem tile_stuck (g : List Char) (bound step : Int) (hstep : step ≤ 0) :
    ∀ (fuel : Nat) (i : Int) (w : List Char), i < bound →
      tile g bound step fuel i w = none := by
  intro fuel
  induction fuel with
  | zero => intro i w _; rfl
  | succ n ih =>
    intro i w hi
    simp only [tile, hi, if_true]
    exact ih _ _ (by omega)

theorem tileCount_unit (bound : Int) :
    ∀ (f : Nat) (i : Int), (bound - i).toNat ≤ f →
      tileCount bound 1 f i = (bound - i).toNat := by
  intro f
  induction f with
  | zero => intro i h; simp [tileCount]; omega
  | succ f ih =>
    intro i h
    by_cases hi : i < bound
    · simp only [tileCount, hi, if_true]
      rw [ih (i + 1) (by omega)]
      omega
    · simp only [tileCount, hi, if_false]
      omega

theorem iters_unit (bound : Int) : iters bound 1 = bound.toNat := by
  unfold iters
  rw [tileCount_unit bound bound.toNat 0 (by simp)]
  simp

/-! ## Lemmas on `say` -/

theorem sayRows_eq (rw : Char → Int) (b : borderStyle) (max ml : Int) (hml : 0 < ml) :
    ∀ (lines : List (List Char)) (esc w : List Char) (fuel : Nat),
      rowsFuel rw max ml lines ≤ fuel →
        sayRows rw b max ml fuel lines esc w = some (w ++ rowsText rw b max ml lines esc) := by
  intro lines
  induction lines with
  | nil => intro esc w fuel _; simp [sayRows, rowsText]
  | cons line rest ih =>
    intro esc w fuel hfuel
    simp only [rowsFuel] at hfuel
    have h1 : iters (max - (widthANSI rw line - ml)) ml < fuel := by omega
    have h2 : rowsFuel rw max ml rest ≤ fuel := by omega
    simp only [sayRows]
    rw [tile_iters _ _ _ hml _ _ h1]
    simp only []
    rw [ih _ _ _ h2]
    by_cases he : esc = [] <;> simp [rowsText, rowText, rowBody, he, List.append_assoc]

theorem sayRows_mono (rw : Char → Int) (b : borderStyle) (max ml : Int) (fuel k : Nat) :
    ∀ (lines : List (List Char)) (esc w x : List Char),
      sayRows rw b max ml fuel lines esc w = some x →
        sayRows rw b max ml (fuel + k) lines esc w = some x := by
  intro lines
  induction lines with
  | nil => intro esc w x h; simpa [sayRows] using h
  | cons line rest ih =>
    intro esc w x h
    simp only [sayRows] at h ⊢
    cases ht : tile (b borderMiddle) (max - (widthANSI rw line - ml)) ml fuel 0
        (w ++ esc ++ b borderLeft ++ b borderMiddle ++ line) with
    | none => rw [ht] at h; simp at h
    | some w5 =>
      rw [ht] at h
      rw [tile_mono _ _ _ _ _ _ _ ht k]
      exact ih _ _ _ h

theorem say_mono (rw : Char → Int) (fuel k : Nat) (w : List Char) (b : borderStyle)
    (lines : List (List Char)) (x : List Char) (h : say rw fuel w b lines = some x) :
    say rw (fuel + k) w b lines = some x := by
  simp only [say] at h ⊢
  cases h1 : tile (b borderTop) (maxWidth rw lines + widthANSI rw (b borderMiddle) * 2)
      (widthANSI rw (b borderTop)) fuel 0 (w ++ b borderTopLeft) with
  | none => rw [h1] at h; simp at h
  | some w2 =>
    rw [h1] at h
    rw [tile_mono _ _ _ _ _ _ _ h1 k]
    simp only [] at h ⊢
    cases h2 : sayRows rw b (maxWidth rw lines) (widthANSI rw (b borderMiddle)) fuel lines []
        (w2 ++ b borderTopRight ++ ['\n']) with
    | none => rw [h2] at h; simp at h
    | some w5 =>
      rw [h2] at h
      rw [sayRows_mono _ _ _ _ _ _ _ _ _ _ h2]
      simp only [] at h ⊢
      cases h3 : tile (b borderBottom) (maxWidth rw lines + widthANSI rw (b borderMiddle) * 2)
          (widthANSI rw (b borderBottom)) fuel 0 (w5 ++ b borderBottomLeft) with
      | none => rw [h3] at h; simp at h
      | some w7 =>
        rw [h3] at h
        rw [tile_mono _ _ _ _ _ _ _ h3 k]
        exact h

theorem say_eq (rw : Char → Int) (b : borderStyle) (lines : List (List Char))
    (htl : 0 < widthANSI rw (b borderTop)) (hml : 0 < widthANSI rw (b borderMiddle))
    (hbl : 0 < widthANSI rw (b borderBottom)) (w : List Char) (fuel : Nat)
    (hfuel : sayFuel rw b lines ≤ fuel) :
    say rw fuel w b lines = some (w ++ sayText rw b lines) := by
  simp only [sayFuel] at hfuel
  simp only [say]
  rw [tile_iters _ _ _ htl _ _ (by omega)]
  simp only []
  rw [sayRows_eq rw b _ _ hml _ _ _ fuel (by omega)]
  simp only []
  rw [tile_iters _ _ _ hbl _ _ (by omega)]
  simp [sayText, topRule, bottomRule, List.append_assoc]

/-- Whatever the fuel, a result of `say` is the closed form. -/
theorem say_some_eq (rw : Char → Int) (b : borderStyle) (lines : List (List Char))
    (htl : 0 < widthANSI rw (b borderTop)) (hml : 0 < widthANSI rw (b borderMiddle))
    (hbl : 0 < widthANSI rw (b borderBottom)) (w : List Char) (fuel : Nat) (x : List Char)
    (h : say rw fuel w b lines = some x) : x = w ++ sayText rw b lines := by
  have h1 := say_mono rw fuel (sayFuel rw b lines) w b lines x h
  rw [say_eq rw b lines htl hml hbl w _ (by omega)] at h1
  exact (Option.some.inj h1).symm

/-! ## Lemmas on `widthANSI` -/

theorem widthLoop_append (rw : Char → Int) (st : Bool × Int) (p q : List Char) :
    widthLoop rw st (p ++ q) = widthLoop rw (widthLoop rw st p) q := by
  simp [widthLoop, List.foldl_append]

theorem widthLoop_cons (rw : Char → Int) (st : Bool × Int) (c : Char) (q : List Char) :
    widthLoop rw st (c :: q) = widthLoop rw (widthStep rw st c) q := rfl

theorem widthLoop_nil (rw : Char → Int) (st : Bool × Int) :
    widthLoop rw st [] = st := rfl

/-- The running total only shifts the result. -/
theorem widthLoop_shift (rw : Char → Int) :
    ∀ (s : List Char) (a : Bool) (w : Int),
      widthLoop rw (a, w) s
        = ((widthLoop rw (a, 0) s).1, w + (widthLoop rw (a, 0) s).2) := by
  intro s
  induction s with
  | nil => intro a w; simp [widthLoop]
  | cons c cs ih =>
    intro a w
    rw [widthLoop_cons, widthLoop_cons]
    by_cases hc : c = ESC
    · by_cases hm : c = 'm'
      · simp only [widthStep, hc, hm, if_true]
        rw [← hc, hm]; simp; exact ih false w
      · simp only [widthStep, hc, hm, if_true, if_false]
        rw [← hc]; simp [hm]; exact ih true w
    · cases a with
      | true =>
        by_cases hm : c = 'm'
        · simp [widthStep, hc, hm]; exact ih false w
        · simp [widthStep, hc, hm]; exact ih true w
      | false =>
        simp only [widthStep, hc, if_false]
        simp only [Bool.false_eq_true, if_false]
        by_cases h1 : rw c = -1
        · simp [h1]; exact ih false w
        · simp only [h1, ne_eq, not_false_eq_true, if_true]
          rw [ih false (w + rw c), ih false (0 + rw c)]
          simp [add_assoc]

theorem widthLoop_closed (rw : Char → Int) (p : List Char) (h : Closed rw p) (w : Int) :
    widthLoop rw (false, w) p = (false, w + widthANSI rw p) := by
  rw [widthLoop_shift]
  unfold Closed at h
  rw [h]
  rfl

theorem widthANSI_append (rw : Char → Int) (p q : List Char) (h : Closed rw p) :
    widthANSI rw (p ++ q) = widthANSI rw p + widthANSI rw q := by
  unfold widthANSI
  rw [widthLoop_append, widthLoop_closed rw p h, widthLoop_shift]

theorem closed_append (rw : Char → Int) (p q : List Char) (hp : Closed rw p)
    (hq : Closed rw q) : Closed rw (p ++ q) := by
  unfold Closed
  rw [widthLoop_append, widthLoop_closed rw p hp, widthLoop_shift]
  exact hq

theorem closed_nil (rw : Char → Int) : Closed rw [] := rfl

theorem widthANSI_nil (rw : Char → Int) : widthANSI rw [] = 0 := rfl

theorem widthStep_plain (rw : Char → Int) (c : Char) (hc : c ≠ ESC) (w : Int) :
    widthStep rw (false, w) c = (false, w + runeCols rw c) := by
  by_cases h1 : rw c = -1 <;> simp [widthStep, hc, runeCols, h1]

theorem closed_single (rw : Char → Int) (c : Char) (hc : c ≠ ESC) : Closed rw [c] := by
  unfold Closed
  rw [widthLoop_cons, widthStep_plain rw c hc]
  rfl

theorem widthANSI_single (rw : Char → Int) (c : Char) (hc : c ≠ ESC) :
    widthANSI rw [c] = runeCols rw c := by
  unfold widthANSI
  rw [widthLoop_cons, widthStep_plain rw c hc]
  simp [widthLoop]

theorem widthLoop_plain (rw : Char → Int) :
    ∀ (s : List Char), ESC ∉ s → ∀ w : Int,
      widthLoop rw (false, w) s = (false, w + (s.map (runeCols rw)).sum) := by
  intro s
  induction s with
  | nil => intro _ w; simp [widthLoop]
  | cons c cs ih =>
    intro h w
    have hc : c ≠ ESC := fun e => h (by simp [e])
    have hcs : ESC ∉ cs := fun e => h (by simp [e])
    rw [widthLoop_cons, widthStep_plain rw c hc, ih hcs]
    simp [add_assoc]

theorem closed_plain (rw : Char → Int) (s : List Char) (h : ESC ∉ s) : Closed rw s := by
  unfold Closed
  rw [widthLoop_plain rw s h]

/-- Inside an escape sequence nothing is counted up to the first `m`. -/
theorem widthLoop_inside (rw : Char → Int) :
    ∀ (s : List Char), 'm' ∉ s → ∀ w : Int, widthLoop rw (true, w) s = (true, w) := by
  intro s
  induction s with
  | nil => intro _ w; rfl
  | cons c cs ih =>
    intro h w
    have hc : c ≠ 'm' := fun e => h (by simp [e])
    have hcs : 'm' ∉ cs := fun e => h (by simp [e])
    rw [widthLoop_cons]
    have hEm : ESC ≠ 'm' := by decide
    have : widthStep rw (true, w) c = (true, w) := by
      by_cases he : c = ESC <;> simp [widthStep, he, hc, hEm]
    rw [this]
    exact ih hcs w

theorem widthStep_esc (rw : Char → Int) (a : Bool) (w : Int) :
    widthStep rw (a, w) ESC = (true, w) := by
  simp [widthStep, ESC]

theorem widthStep_m (rw : Char → Int) (w : Int) :
    widthStep rw (true, w) 'm' = (false, w) := by
  simp [widthStep, ESC]

/-- A sequence `ESC body m` with no `m` in `body` is skipped as a whole. -/
theorem widthLoop_escape (rw : Char → Int) (body : List Char) (hb : 'm' ∉ body)
    (a : Bool) (w : Int) :
    widthLoop rw (a, w) (ESC :: (body ++ ['m'])) = (false, w) := by
  rw [widthLoop_cons, widthStep_esc, widthLoop_append, widthLoop_inside rw body hb,
    widthLoop_cons, widthStep_m]
  rfl

/-! ## Lemmas on `escCont` -/

theorem lastIndex_none (c : Char) : ∀ s : List Char, c ∉ s → lastIndex c s = none := by
  intro s
  induction s with
  | nil => intro _; rfl
  | cons x xs ih =>
    intro h
    have hx : x ≠ c := fun e => h (by simp [e])
    have hxs : c ∉ xs := fun e => h (by simp [e])
    simp [lastIndex, ih hxs, hx]

theorem lastIndex_mem (c : Char) : ∀ l : List Char, c ∈ l → lastIndex c l ≠ none := by
  intro l
  induction l with
  | nil => intro h0; simp at h0
  | cons y ys ihy =>
    intro h0
    simp only [lastIndex]
    cases hy : lastIndex c ys with
    | some k => simp
    | none =>
      by_cases hyc : y = c
      · simp [hyc]
      · have : c ∈ ys := by
          rcases List.mem_cons.mp h0 with h1 | h1
          · exact absurd h1.symm hyc
          · exact h1
        exact absurd hy (ihy this)

theorem lastIndex_append (c : Char) (t : List Char) (ht : c ∉ t) :
    ∀ p : List Char, lastIndex c (p ++ c :: t) = some p.length := by
  intro p
  induction p with
  | nil => simp [lastIndex, lastIndex_none c t ht]
  | cons x xs ih => simp [lastIndex, ih]

theorem lastIndex_some (c : Char) :
    ∀ (s : List Char) (i : Nat), lastIndex c s = some i →
      ∃ p t, s = p ++ c :: t ∧ p.length = i ∧ c ∉ t := by
  intro s
  induction s with
  | nil => intro i h; simp [lastIndex] at h
  | cons x xs ih =>
    intro i h
    simp only [lastIndex] at h
    cases hr : lastIndex c xs with
    | some k =>
      rw [hr] at h
      obtain ⟨p, t, e, hl, hn⟩ := ih k hr
      refine ⟨x :: p, t, by simp [e], ?_, hn⟩
      simp at h
      simp [hl, h]
    | none =>
      rw [hr] at h
      by_cases hx : x = c
      · simp [hx] at h
        refine ⟨[], xs, by simp [hx], by simp [h], ?_⟩
        exact fun hm => lastIndex_mem c xs hm hr
      · simp [hx] at h

theorem takeThrough_mem : ∀ (t : List Char) (c : Char), c ∈ takeThrough t → c ∈ t := by
  intro t
  induction t with
  | nil => intro c h; simp [takeThrough] at h
  | cons x xs ih =>
    intro c h
    by_cases hx : x = 'm'
    · simp [takeThrough, hx] at h
      simp [h, hx]
    · simp only [takeThrough, hx, if_false, List.mem_cons] at h
      rcases h with h | h
      · simp [h]
      · exact List.mem_cons_of_mem _ (ih c h)

theorem takeThrough_first (rest : List Char) :
    ∀ body : List Char, 'm' ∉ body →
      takeThrough (body ++ 'm' :: rest) = body ++ ['m'] := by
  intro body
  induction body with
  | nil => intro _; simp [takeThrough]
  | cons x xs ih =>
    intro h
    have hx : x ≠ 'm' := fun e => h (by simp [e])
    have hxs : 'm' ∉ xs := fun e => h (by simp [e])
    simp [takeThrough, hx, ih hxs]

theorem takeThrough_open : ∀ t : List Char, 'm' ∉ t → takeThrough t = t := by
  intro t
  induction t with
  | nil => intro _; rfl
  | cons x xs ih =>
    intro h
    have hx : x ≠ 'm' := fun e => h (by simp [e])
    have hxs : 'm' ∉ xs := fun e => h (by simp [e])
    simp [takeThrough, hx, ih hxs]

/-- Invariant of the loop of `escCont`: nothing but non-`m` runes were passed. -/
theorem escLoop_eq (s : List Char) (i : Nat) :
    ∀ (n j : Nat), i ≤ j → j + n = s.length → 'm' ∉ (s.take j).drop i →
      escLoop s i n j = (s.take j).drop i ++ takeThrough (s.drop j) := by
  intro n
  induction n with
  | zero =>
    intro j _ hj _
    have hj2 : s.length ≤ j := by omega
    simp [escLoop, List.take_of_length_le hj2, List.drop_eq_nil_of_le hj2, takeThrough]
  | succ n ih =>
    intro j hij hj hm
    have hlt : j < s.length := by omega
    have hd : s.drop j = s[j] :: s.drop (j + 1) := List.drop_eq_getElem_cons hlt
    have ht : s.take (j + 1) = s.take j ++ [s[j]] := by
      rw [List.take_succ]
      simp [List.getElem?_eq_getElem hlt]
    have hlen : (s.take j).length = j := by simp; omega
    have hdrop : (s.take (j + 1)).drop i = (s.take j).drop i ++ [s[j]] := by
      rw [ht, List.drop_append_of_le_length (by omega)]
    have hg : s.get? j = some s[j] := by
      simp [List.getElem?_eq_getElem hlt]
    simp only [escLoop, hg]
    by_cases hc : s[j] = 'm'
    · simp only [hc, if_true]
      rw [hdrop, hd, hc]
      simp [takeThrough]
    · have hne : ¬ (some s[j] = some 'm') := by simpa using hc
      simp only [hne, if_false]
      rw [ih (j + 1) (by omega) (by omega) (by
        rw [hdrop]
        simp only [List.mem_append, List.mem_singleton, not_or]
        exact ⟨hm, fun e => hc e.symm⟩)]
      rw [hdrop, hd]
      simp [takeThrough, hc]

theorem escCont_plain (s : List Char) (h : ESC ∉ s) : escCont s = [] := by
  simp [escCont, lastIndex_none ESC s h]

theorem escCont_split (p t : List Char) (ht : ESC ∉ t) :
    escCont (p ++ ESC :: t) = ESC :: takeThrough t := by
  have hEm : ESC ≠ 'm' := by decide
  simp only [escCont, lastIndex_append ESC t ht p]
  rw [escLoop_eq _ _ _ _ (le_refl _) (by simp) (by simp)]
  simp [takeThrough, hEm]

/-- Functional form: the carry is cut from the last introducer on. -/
theorem escCont_cases (s : List Char) :
    escCont s = [] ∧ ESC ∉ s ∨
      ∃ p t, s = p ++ ESC :: t ∧ ESC ∉ t ∧ escCont s = ESC :: takeThrough t := by
  cases h : lastIndex ESC s with
  | none =>
    left
    refine ⟨by simp [escCont, h], ?_⟩
    exact fun hm => lastIndex_mem ESC s hm h
  | some i =>
    right
    obtain ⟨p, t, e, _, hn⟩ := lastIndex_some ESC s i h
    exact ⟨p, t, e, hn, by rw [e]; exact escCont_split p t hn⟩
/-! ## Lemmas on measured texts -/

theorem meas_nil (rw : Char → Int) : Meas rw [] 0 := ⟨rfl, rfl⟩

theorem meas_append (rw : Char → Int) (p q : List Char) (n m : Int)
    (hp : Meas rw p n) (hq : Meas rw q m) : Meas rw (p ++ q) (n + m) :=
  ⟨closed_append rw p q hp.1 hq.1, by rw [widthANSI_append rw p q hp.1, hp.2, hq.2]⟩

theorem meas_rep (rw : Char → Int) (g : List Char) (k : Int) (hg : Meas rw g k) :
    ∀ n : Nat, Meas rw (rep n g) (n * k) := by
  intro n
  induction n with
  | zero => simpa [rep] using meas_nil rw
  | succ n ih =>
    have := meas_append rw g (rep n g) k (n * k) hg ih
    simp only [rep]
    have e : ((n + 1 : Nat) : Int) * k = k + n * k := by push_cast; ring
    rw [e]
    exact this

theorem meas_single (rw : Char → Int) (c : Char) (hc : c ≠ ESC) (h1 : rw c = 1) :
    Meas rw [c] 1 := by
  refine ⟨closed_single rw c hc, ?_⟩
  rw [widthANSI_single rw c hc]
  simp [runeCols, h1]

theorem meas_resetSeq (rw : Char → Int) : Meas rw resetSeq 0 := by
  have h := widthLoop_escape rw "[0".toList (by decide) false 0
  have e : resetSeq = ESC :: ("[0".toList ++ ['m']) := rfl
  constructor
  · unfold Closed; rw [e, h]
  · unfold widthANSI; rw [e, h]

theorem widthLoop_takeThrough (rw : Char → Int) :
    ∀ t : List Char, 'm' ∈ t → ∀ w : Int,
      widthLoop rw (true, w) (takeThrough t) = (false, w) := by
  intro t
  induction t with
  | nil => intro h; simp at h
  | cons c cs ih =>
    intro h w
    by_cases hc : c = 'm'
    · simp only [takeThrough, hc, if_true]
      rw [widthLoop_cons, widthStep_m]
      rfl
    · have hcs : 'm' ∈ cs := by
        rcases List.mem_cons.mp h with h1 | h1
        · exact absurd h1.symm hc
        · exact h1
      simp only [takeThrough, hc, if_false]
      rw [widthLoop_cons]
      have hEm : ESC ≠ 'm' := by decide
      have : widthStep rw (true, w) c = (true, w) := by
        by_cases he : c = ESC <;> simp [widthStep, he, hc, hEm]
      rw [this]
      exact ih hcs w

theorem escTerminated_append :
    ∀ p q : List Char, escTerminated (p ++ q) = true → escTerminated q = true := by
  intro p
  induction p with
  | nil => intro q h; exact h
  | cons c cs ih =>
    intro q h
    simp only [List.cons_append, escTerminated, Bool.and_eq_true] at h
    exact ih q h.2

/-- A line whose escape sequences are all terminated leaves the scan outside. -/
theorem widthLoop_terminated (rw : Char → Int) :
    ∀ (s : List Char) (a : Bool) (w : Int), escTerminated s = true →
      (a = true → 'm' ∈ s) → (widthLoop rw (a, w) s).1 = false := by
  intro s
  induction s with
  | nil =>
    intro a w _ ha
    cases a with
    | true => simp at ha
    | false => rfl
  | cons c cs ih =>
    intro a w h ha
    simp only [escTerminated, Bool.and_eq_true, Bool.or_eq_true] at h
    rw [widthLoop_cons]
    by_cases he : c = ESC
    · have hm : 'm' ∈ cs := by
        rcases h.1 with h1 | h1
        · simp [he] at h1
        · simpa using h1
      rw [he, widthStep_esc]
      exact ih true w h.2 (fun _ => hm)
    · cases a with
      | false =>
        rw [widthStep_plain rw c he]
        exact ih false _ h.2 (by simp)
      | true =>
        by_cases hc : c = 'm'
        · rw [hc, widthStep_m]
          exact ih false _ h.2 (by simp)
        · have : widthStep rw (true, w) c = (true, w) := by
            simp [widthStep, he, hc]
          rw [this]
          refine ih true w h.2 (fun _ => ?_)
          rcases List.mem_cons.mp (ha rfl) with h1 | h1
          · exact absurd h1.symm hc
          · exact h1

theorem meas_terminated (rw : Char → Int) (s : List Char) (h : escTerminated s = true) :
    Meas rw s (widthANSI rw s) :=
  ⟨widthLoop_terminated rw s false 0 h (by simp), rfl⟩

/-- The carry of a line whose escape sequences are all terminated is a whole
escape sequence: it measures 0 and leaves the scan outside. -/
theorem meas_escCont (rw : Char → Int) (s : List Char) (h : escTerminated s = true) :
    Meas rw (escCont s) 0 := by
  rcases escCont_cases s with ⟨e, _⟩ | ⟨p, t, e, _, hc⟩
  · rw [e]; exact meas_nil rw
  · rw [hc]
    have h2 : escTerminated (ESC :: t) = true := escTerminated_append p _ (e ▸ h)
    simp only [escTerminated, Bool.and_eq_true, Bool.or_eq_true] at h2
    have hm : 'm' ∈ t := by
      rcases h2.1 with h1 | h1
      · simp at h1
      · simpa using h1
    have hl : widthLoop rw (false, 0) (ESC :: takeThrough t) = (false, 0) := by
      rw [widthLoop_cons, widthStep_esc, widthLoop_takeThrough rw t hm]
    constructor
    · unfold Closed; rw [hl]
    · unfold widthANSI; rw [hl]

theorem escCont_mem (s : List Char) (c : Char) (h : c ∈ escCont s) : c ∈ s := by
  rcases escCont_cases s with ⟨e, _⟩ | ⟨p, t, e, _, hc⟩
  · rw [e] at h; simp at h
  · rw [hc] at h
    rw [e]
    rcases List.mem_cons.mp h with h1 | h1
    · simp [h1]
    · have := takeThrough_mem t c h1
      simp [this]

/-! ## Lemmas on `maxWidth` -/

theorem maxFold_ge_init (rw : Char → Int) :
    ∀ (lines : List (List Char)) (m : Int),
      m ≤ lines.foldl (fun max l => let w := widthANSI rw l; if w > max then w else max) m := by
  intro lines
  induction lines with
  | nil => intro m; simp
  | cons l ls ih =>
    intro m
    simp only [List.foldl_cons]
    by_cases h : widthANSI rw l > m
    · simp only [h, if_true]
      exact le_trans (le_of_lt h) (ih _)
    · simp only [h, if_false]
      exact ih m

theorem maxFold_ge_mem (rw : Char → Int) :
    ∀ (lines : List (List Char)) (m : Int) (l : List Char), l ∈ lines →
      widthANSI rw l
        ≤ lines.foldl (fun max l => let w := widthANSI rw l; if w > max then w else max) m := by
  intro lines
  induction lines with
  | nil => intro m l h; simp at h
  | cons x xs ih =>
    intro m l h
    simp only [List.foldl_cons]
    rcases List.mem_cons.mp h with h1 | h1
    · subst h1
      by_cases hx : widthANSI rw l > m
      · simp only [hx, if_true]
        exact maxFold_ge_init rw xs _
      · simp only [hx, if_false]
        exact le_trans (not_lt.mp hx) (maxFold_ge_init rw xs m)
    · exact ih _ l h1

theorem maxWidth_nonneg (rw : Char → Int) (lines : List (List Char)) :
    0 ≤ maxWidth rw lines :=
  maxFold_ge_init rw lines 0

theorem maxWidth_ge (rw : Char → Int) (lines : List (List Char)) (l : List Char)
    (h : l ∈ lines) : widthANSI rw l ≤ maxWidth rw lines :=
  maxFold_ge_mem rw lines 0 l h

/-! ## Lemmas on rows -/

theorem rep_mem (g : List Char) (c : Char) : ∀ n : Nat, c ∈ rep n g → c ∈ g := by
  intro n
  induction n with
  | zero => intro h; simp [rep] at h
  | succ n ih =>
    intro h
    simp only [rep, List.mem_append] at h
    rcases h with h | h
    · exact h
    · exact ih h

theorem splitNL_plain : ∀ a : List Char, '\n' ∉ a → splitNL a = [a] := by
  intro a
  induction a with
  | nil => intro _; rfl
  | cons c cs ih =>
    intro h
    have hc : c ≠ '\n' := fun e => h (by simp [e])
    have hcs : '\n' ∉ cs := fun e => h (by simp [e])
    simp [splitNL, hc, ih hcs]

theorem splitNL_append (b : List Char) :
    ∀ a : List Char, '\n' ∉ a → splitNL (a ++ '\n' :: b) = a :: splitNL b := by
  intro a
  induction a with
  | nil => intro _; simp [splitNL]
  | cons c cs ih =>
    intro h
    have hc : c ≠ '\n' := fun e => h (by simp [e])
    have hcs : '\n' ∉ cs := fun e => h (by simp [e])
    simp [splitNL, hc, ih hcs]
theorem rowBody_noBreak (rw : Char → Int) (b : borderStyle) (max ml : Int)
    (hb : ∀ i, i ≠ borderLine → '\n' ∉ b i) (esc line : List Char)
    (he : '\n' ∉ esc) (hl : '\n' ∉ line) : '\n' ∉ rowBody rw b max ml esc line := by
  have hL := hb borderLeft (by decide)
  have hM := hb borderMiddle (by decide)
  have hR := hb borderRight (by decide)
  have hrep : '\n' ∉ rep (iters (max - (widthANSI rw line - ml)) ml) (b borderMiddle) :=
    fun h => hM (rep_mem _ _ _ h)
  have hreset : '\n' ∉ (if esc ≠ [] then resetSeq else []) := by
    by_cases h : esc = []
    · simp [h]
    · simp only [ne_eq, h, not_false_eq_true, if_true]
      decide
  simp only [rowBody, List.mem_append, not_or]
  exact ⟨⟨⟨⟨⟨⟨he, hL⟩, hM⟩, hl⟩, hrep⟩, hR⟩, hreset⟩

theorem splitNL_rows (rw : Char → Int) (b : borderStyle) (max ml : Int)
    (hb : ∀ i, i ≠ borderLine → '\n' ∉ b i) (tail : List Char) :
    ∀ (lines : List (List Char)) (esc : List Char), '\n' ∉ esc →
      (∀ l ∈ lines, '\n' ∉ l) →
        splitNL (rowsText rw b max ml lines esc ++ tail)
          = rowBodies rw b max ml lines esc ++ splitNL tail := by
  intro lines
  induction lines with
  | nil => intro esc _ _; simp [rowsText, rowBodies]
  | cons line rest ih =>
    intro esc he hl
    have h1 : '\n' ∉ line := hl line (by simp)
    have h2 : ∀ l ∈ rest, '\n' ∉ l := fun l hm => hl l (by simp [hm])
    have h3 : '\n' ∉ escCont line := fun h => h1 (escCont_mem line _ h)
    have e : rowsText rw b max ml (line :: rest) esc ++ tail
        = rowBody rw b max ml esc line
            ++ '\n' :: (rowsText rw b max ml rest (escCont line) ++ tail) := by
      simp [rowsText, rowText, List.append_assoc]
    rw [e, splitNL_append _ _ (rowBody_noBreak rw b max ml hb esc line he h1),
      ih (escCont line) h3 h2]
    simp [rowBodies]

/-- The rows of the text written by `say`: top rule, content rows, bottom rule. -/
theorem splitNL_sayText (rw : Char → Int) (b : borderStyle)
    (hb : ∀ i, i ≠ borderLine → '\n' ∉ b i) (lines : List (List Char))
    (hl : ∀ l ∈ lines, '\n' ∉ l) :
    splitNL (sayText rw b lines)
      = topRule rw b lines
          :: (rowBodies rw b (maxWidth rw lines) (widthANSI rw (b borderMiddle)) lines []
              ++ [bottomRule rw b lines]) := by
  have hTL := hb borderTopLeft (by decide)
  have hT := hb borderTop (by decide)
  have hTR := hb borderTopRight (by decide)
  have hBL := hb borderBottomLeft (by decide)
  have hB := hb borderBottom (by decide)
  have hBR := hb borderBottomRight (by decide)
  have htop : '\n' ∉ topRule rw b lines := by
    simp only [topRule, List.mem_append, not_or]
    exact ⟨⟨hTL, fun h => hT (rep_mem _ _ _ h)⟩, hTR⟩
  have hbot : '\n' ∉ bottomRule rw b lines := by
    simp only [bottomRule, List.mem_append, not_or]
    exact ⟨⟨hBL, fun h => hB (rep_mem _ _ _ h)⟩, hBR⟩
  have e : sayText rw b lines = topRule rw b lines ++ '\n' ::
      (rowsText rw b (maxWidth rw lines) (widthANSI rw (b borderMiddle)) lines []
        ++ bottomRule rw b lines) := by
    simp [sayText, List.append_assoc]
  rw [e, splitNL_append _ _ htop, splitNL_rows rw b _ _ hb _ lines [] (by simp) hl,
    splitNL_plain _ hbot]

theorem rowBodies_length (rw : Char → Int) (b : borderStyle) (max ml : Int) :
    ∀ (lines : List (List Char)) (esc : List Char),
      (rowBodies rw b max ml lines esc).length = lines.length := by
  intro lines
  induction lines with
  | nil => intro _; rfl
  | cons l ls ih => intro esc; simp [rowBodies, ih]

/-- With one-column glyphs every content row measures `max + 4`. -/
theorem rowBodies_width (rw : Char → Int) (b : borderStyle) (hb : UnitStyle rw b)
    (max : Int) :
    ∀ (lines : List (List Char)) (esc : List Char), Meas rw esc 0 →
      (∀ l ∈ lines, escTerminated l = true ∧ widthANSI rw l ≤ max) →
        ∀ row ∈ rowBodies rw b max 1 lines esc, widthANSI rw row = max + 4 := by
  intro lines
  induction lines with
  | nil => intro esc _ _ row h; simp [rowBodies] at h
  | cons line rest ih =>
    intro esc he hl row hrow
    have hline := hl line (by simp)
    simp only [rowBodies, List.mem_cons] at hrow
    rcases hrow with hrow | hrow
    · have hL := (hb borderLeft (by decide)).1
      have hM := (hb borderMiddle (by decide)).1
      have hR := (hb borderRight (by decide)).1
      have hline2 := meas_terminated rw line hline.1
      have hrep := meas_rep rw (b borderMiddle) 1 hM
        (iters (max - (widthANSI rw line - 1)) 1)
      have hres : Meas rw (if esc ≠ [] then resetSeq else []) 0 := by
        by_cases h : esc = []
        · simp only [ne_eq, h, not_true_eq_false, if_false]; exact meas_nil rw
        · simp only [ne_eq, h, not_false_eq_true, if_true]; exact meas_resetSeq rw
      have hall := meas_append rw _ _ _ _
        (meas_append rw _ _ _ _
          (meas_append rw _ _ _ _
            (meas_append rw _ _ _ _
              (meas_append rw _ _ _ _ (meas_append rw _ _ _ _ he hL) hM) hline2) hrep) hR)
        hres
      rw [hrow]
      have hw := hall.2
      simp only [rowBody]
      rw [hw, iters_unit]
      have := hline.2
      have e : ((max - (widthANSI rw line - 1)).toNat : Int)
          = max - (widthANSI rw line - 1) := Int.toNat_of_nonneg (by omega)
      rw [e]
      ring
    · exact ih (escCont line) (meas_escCont rw line hline.1)
        (fun l hm => hl l (by simp [hm])) row hrow

theorem topRule_width (rw : Char → Int) (b : borderStyle) (hb : UnitStyle rw b)
    (lines : List (List Char)) :
    widthANSI rw (topRule rw b lines) = maxWidth rw lines + 4 := by
  have hTL := (hb borderTopLeft (by decide)).1
  have hT := (hb borderTop (by decide)).1
  have hTR := (hb borderTopRight (by decide)).1
  have hM := (hb borderMiddle (by decide)).1
  have h := meas_append rw _ _ _ _ (meas_append rw _ _ _ _ hTL
    (meas_rep rw (b borderTop) 1 hT
      (iters (maxWidth rw lines + widthANSI rw (b borderMiddle) * 2)
        (widthANSI rw (b borderTop))))) hTR
  simp only [topRule]
  rw [h.2, hT.2, hM.2, iters_unit]
  have := maxWidth_nonneg rw lines
  have e : ((maxWidth rw lines + 1 * 2).toNat : Int) = maxWidth rw lines + 1 * 2 :=
    Int.toNat_of_nonneg (by omega)
  rw [e]
  ring

theorem bottomRule_width (rw : Char → Int) (b : borderStyle) (hb : UnitStyle rw b)
    (lines : List (List Char)) :
    widthANSI rw (bottomRule rw b lines) = maxWidth rw lines + 4 := by
  have hBL := (hb borderBottomLeft (by decide)).1
  have hB := (hb borderBottom (by decide)).1
  have hBR := (hb borderBottomRight (by decide)).1
  have hM := (hb borderMiddle (by decide)).1
  have h := meas_append rw _ _ _ _ (meas_append rw _ _ _ _ hBL
    (meas_rep rw (b borderBottom) 1 hB
      (iters (maxWidth rw lines + widthANSI rw (b borderMiddle) * 2)
        (widthANSI rw (b borderBottom))))) hBR
  simp only [bottomRule]
  rw [h.2, hB.2, hM.2, iters_unit]
  have := maxWidth_nonneg rw lines
  have e : ((maxWidth rw lines + 1 * 2).toNat : Int) = maxWidth rw lines + 1 * 2 :=
    Int.toNat_of_nonneg (by omega)
  rw [e]
  ring

theorem unit_glyph (rw : Char → Int) (c : Char) (hc : c ≠ ESC) (hn : c ≠ '\n')
    (h1 : rw c = 1) : Meas rw [c] 1 ∧ '\n' ∉ [c] :=
  ⟨meas_single rw c hc h1, by simpa using hn.symm⟩

/-- When the catalog runes are one column wide, every catalog style has
one-column frame glyphs. -/
theorem catalog_unit (rw : Char → Int) (h : ∀ c ∈ catalogRunes, rw c = 1)
    (b : borderStyle) (hb : b ∈ catalog) : UnitStyle rw b := by
  simp only [catalog, List.mem_cons, List.mem_singleton, List.not_mem_nil, or_false] at hb
  intro i hi
  rcases hb with hb | hb | hb | hb | hb | hb <;> subst hb <;> cases i <;>
    first
    | exact absurd rfl hi
    | exact unit_glyph rw _ (by decide) (by decide) (h _ (by decide))

/-! ## Lemmas on `tewi` -/

theorem cowFilter_eq :
    ∀ (cow cowp : List (List Char)),
      cowFilter cow cowp = cowp ++ cow.filter (fun c => !isDirective c) := by
  intro cow
  induction cow with
  | nil => intro cowp; simp [cowFilter]
  | cons c rest ih =>
    intro cowp
    by_cases h : isDirective c = true
    · simp [cowFilter, h, ih]
    · simp [cowFilter, h, ih]

theorem tewiWrite_eq (pairs : List (List Char × List Char)) :
    ∀ (ls : List (List Char)) (w : List Char),
      tewiWrite pairs ls w = w ++ figure pairs ls := by
  intro ls
  induction ls with
  | nil => intro w; simp [tewiWrite, figure]
  | cons c rest ih =>
    intro w
    simp [tewiWrite, figure, ih, List.append_assoc]

theorem tewi_eq (w : List Char) (cow : List (List Char)) (eyes tongue line : List Char) :
    tewi w cow eyes tongue line
      = w ++ figure (oldnew eyes tongue line) (cow.filter (fun c => !isDirective c)) := by
  simp [tewi, tewiWrite_eq, cowFilter_eq]

theorem lookup_tokenAt (eyes tongue line s : List Char) :
    lookup (oldnew eyes tongue line) s
      = (tokenAt s).map (fun k => (Token.text k, Token.value eyes tongue line k)) := by
  simp only [lookup, tokenAt, oldnew, allTokens, List.find?, Token.text]
  repeat (any_goals split)
  all_goals simp_all [Token.text, Token.value]

theorem replaceAux_segments (eyes tongue line : List Char) :
    ∀ (n : Nat) (s : List Char),
      replaceAux (oldnew eyes tongue line) n s
        = substText eyes tongue line (segments n s) := by
  intro n
  induction n with
  | zero => intro s; simp [replaceAux, segments, substText]
  | succ n ih =>
    intro s
    cases s with
    | nil => simp [replaceAux, segments, substText]
    | cons c cs =>
      simp only [replaceAux, segments, lookup_tokenAt]
      cases h : tokenAt (c :: cs) with
      | none => simp [substText, ih]
      | some k => simp [substText, ih]

theorem tokenAt_split (s : List Char) (k : Token) (h : tokenAt s = some k) :
    s = Token.text k ++ s.drop (Token.text k).length := by
  have h1 := List.find?_some h
  have h2 : Token.text k <+: s := List.isPrefixOf_iff_prefix.mp (by simpa using h1)
  obtain ⟨t, e⟩ := h2
  rw [← e]
  simp

theorem text_length_pos (k : Token) : 0 < (Token.text k).length := by
  cases k <;> decide

theorem sourceText_segments :
    ∀ (n : Nat) (s : List Char), s.length ≤ n → sourceText (segments n s) = s := by
  intro n
  induction n with
  | zero =>
    intro s h
    have : s = [] := List.length_eq_zero.mp (by omega)
    simp [this, segments, sourceText]
  | succ n ih =>
    intro s h
    cases s with
    | nil => simp [segments, sourceText]
    | cons c cs =>
      simp only [segments]
      cases hk : tokenAt (c :: cs) with
      | none =>
        simp only [sourceText]
        rw [ih cs (by simpa using h)]
      | some k =>
        simp only [sourceText]
        have hp := tokenAt_split (c :: cs) k hk
        have hl := text_length_pos k
        rw [ih _ (by
          rw [List.length_drop]
          simp only [List.length_cons] at h ⊢
          omega)]
        exact hp.symm

theorem replace_segments (eyes tongue line s : List Char) :
    replace (oldnew eyes tongue line) s
      = substText eyes tongue line (segments s.length s) :=
  replaceAux_segments eyes tongue line s.length s

theorem isPrefixOf_cons (a b : Char) (p q : List Char) :
    (a :: p).isPrefixOf (b :: q) = (a == b && p.isPrefixOf q) := rfl

theorem isPrefixOf_nil (q : List Char) : ([] : List Char).isPrefixOf q = true := by
  cases q <;> rfl

theorem tokenAt_text (k : Token) (rest : List Char) :
    tokenAt (Token.text k ++ rest) = some k := by
  cases k <;>
    simp [tokenAt, allTokens, List.find?, Token.text, isPrefixOf_cons, isPrefixOf_nil]

theorem segments_tokensText :
    ∀ (toks : List Token) (n : Nat), (tokensText toks).length ≤ n →
      segments n (tokensText toks) = toks.map Segment.token := by
  intro toks
  induction toks with
  | nil =>
    intro n _
    cases n <;> simp [tokensText, segments]
  | cons k r ih =>
    intro n hn
    have hpos := text_length_pos k
    have hk := tokenAt_text k (tokensText r)
    simp only [tokensText, List.length_append] at hn
    cases n with
    | zero => omega
    | succ n =>
      cases hs : Token.text k ++ tokensText r with
      | nil =>
        have h0 : Token.text k = [] := (List.append_eq_nil.mp hs).1
        rw [h0] at hpos
        simp at hpos
      | cons c cs =>
        simp only [tokensText, hs, segments]
        rw [← hs, hk]
        simp only [List.drop_left, List.map_cons]
        rw [ih n (by omega)]

theorem substText_tokens (eyes tongue line : List Char) :
    ∀ toks : List Token,
      substText eyes tongue line (toks.map Segment.token)
        = tokensValue eyes tongue line toks := by
  intro toks
  induction toks with
  | nil => rfl
  | cons k r ih => simp [substText, tokensValue, ih]

theorem replace_tokensText (eyes tongue line : List Char) (toks : List Token) :
    replace (oldnew eyes tongue line) (tokensText toks)
      = tokensValue eyes tongue line toks := by
  rw [replace_segments, segments_tokensText toks _ (le_refl _), substText_tokens]

theorem tokensText_content (toks : List Token) : isDirective (tokensText toks) = false := by
  cases toks with
  | nil => decide
  | cons k r =>
    cases k <;>
      simp [isDirective, hasPrefix, tokensText, Token.text, isPrefixOf_cons, isPrefixOf_nil]

theorem figure_tokens (eyes tongue line : List Char) :
    ∀ tl : List (List Token),
      figure (oldnew eyes tongue line) (tl.map tokensText)
        = tokensFigure eyes tongue line tl := by
  intro tl
  induction tl with
  | nil => rfl
  | cons l r ih => simp [figure, tokensFigure, replace_tokensText, ih]

theorem filter_directives (dirs : List (List Char))
    (hd : ∀ d ∈ dirs, isDirective d = true) :
    dirs.filter (fun c => !isDirective c) = [] := by
  rw [List.filter_eq_nil_iff]
  intro c hc
  simp [hd c hc]

theorem filter_tokenLines (tl : List (List Token)) :
    (tl.map tokensText).filter (fun c => !isDirective c) = tl.map tokensText := by
  rw [List.filter_eq_self]
  intro c hc
  obtain ⟨l, _, e⟩ := List.mem_map.mp hc
  rw [← e, tokensText_content]
  rfl

/-- With eyes `oo`, an empty tongue and a backslash pointer only four runes
are ever written. -/
theorem tokensFigure_runes :
    ∀ (tl : List (List Token)) (c : Char),
      c ∈ tokensFigure "oo".toList [] "\\".toList tl → c ∈ ['\n', '\\', '@', 'o'] := by
  have hv : ∀ (l : List Token) (c : Char),
      c ∈ tokensValue "oo".toList [] "\\".toList l → c ∈ ['\n', '\\', '@', 'o'] := by
    intro l
    induction l with
    | nil => intro c h; simp [tokensValue] at h
    | cons k r ih =>
      intro c h
      simp only [tokensValue, List.mem_append] at h
      rcases h with h | h
      · cases k <;> simp [Token.value] at h <;> simp [h]
      · exact ih c h
  intro tl
  induction tl with
  | nil => intro c h; simp [tokensFigure] at h
  | cons l r ih =>
    intro c h
    simp only [tokensFigure, List.mem_cons, List.mem_append] at h
    rcases h with h | h | h
    · simp [h]
    · exact hv l c h
    · exact ih c h

/-! ## Lemmas on skeletons -/

theorem render_append (b : borderStyle) :
    ∀ x y : List Item, render b (x ++ y) = render b x ++ render b y := by
  intro x
  induction x with
  | nil => intro y; rfl
  | cons i r ih =>
    intro y
    cases i <;> simp [render, ih, List.append_assoc]

theorem render_replicate (b : borderStyle) (i : borderIndex) :
    ∀ n : Nat, render b (List.replicate n (Item.role i)) = rep n (b i) := by
  intro n
  induction n with
  | zero => rfl
  | succ n ih => simp [List.replicate_succ, render, rep, ih]

theorem render_skelRows (rw : Char → Int) (b : borderStyle) (max : Int) :
    ∀ (lines : List (List Char)) (esc : List Char),
      render b (skelRows rw max lines esc) = rowsText rw b max 1 lines esc := by
  intro lines
  induction lines with
  | nil => intro esc; rfl
  | cons line rest ih =>
    intro esc
    simp only [skelRows, rowsText, rowText, rowBody, render_append, render_replicate, ih,
      iters_unit]
    by_cases he : esc = [] <;> simp [render, he, List.append_assoc]

/-- For a style whose three tiling glyphs measure one column, the text of
`say` is the skeleton rendered with the style. -/
theorem render_skeleton (rw : Char → Int) (b : borderStyle) (lines : List (List Char))
    (hT : widthANSI rw (b borderTop) = 1) (hM : widthANSI rw (b borderMiddle) = 1)
    (hB : widthANSI rw (b borderBottom) = 1) :
    render b (skeleton rw lines) = sayText rw b lines := by
  simp only [skeleton, sayText, topRule, bottomRule, render_append, render_replicate,
    render_skelRows, hT, hM, hB, iters_unit]
  simp [render, List.append_assoc]

/-! ## Lemmas on the number of tiling rounds -/

theorem tileCount_bounds (bound step : Int) (hstep : 0 < step) :
    ∀ (f : Nat) (i : Int), (bound - i).toNat ≤ f →
      bound ≤ i + (tileCount bound step f i : Int) * step ∧
      (i < bound → i + (tileCount bound step f i : Int) * step < bound + step) ∧
      (bound ≤ i → tileCount bound step f i = 0) := by
  intro f
  induction f with
  | zero =>
    intro i h
    have hi : bound ≤ i := by omega
    have e0 : tileCount bound step 0 i = 0 := rfl
    rw [e0]
    refine ⟨by simpa using hi, fun h2 => by omega, fun _ => rfl⟩
  | succ f ih =>
    intro i h
    by_cases hi : i < bound
    · have e1 : tileCount bound step (f + 1) i = tileCount bound step f (i + step) + 1 := by
        simp only [tileCount, hi, if_true]
      rw [e1]
      obtain ⟨h1, h2, h3⟩ := ih (i + step) (by omega)
      have e : ((tileCount bound step f (i + step) + 1 : Nat) : Int) * step
          = (tileCount bound step f (i + step) : Int) * step + step := by
        push_cast; ring
      rw [e]
      refine ⟨by linarith, fun _ => ?_, fun h4 => by omega⟩
      by_cases h5 : i + step < bound
      · have := h2 h5
        linarith
      · have h6 := h3 (by omega)
        rw [h6]
        simp only [Nat.cast_zero, zero_mul]
        linarith
    · have e1 : tileCount bound step (f + 1) i = 0 := by
        simp only [tileCount, hi, if_false]
      rw [e1]
      refine ⟨by simp; omega, fun h2 => absurd h2 hi, fun _ => rfl⟩

/-- The rounds of a loop from 0 tile at least `bound` columns and overshoot by
less than one step. -/
theorem iters_bounds (bound step : Int) (hstep : 0 < step) :
    bound ≤ (iters bound step : Int) * step ∧
    (0 < bound → (iters bound step : Int) * step < bound + step) ∧
    (bound ≤ 0 → iters bound step = 0) := by
  have h := tileCount_bounds bound step hstep bound.toNat 0 (by simp)
  simp only [zero_add] at h
  exact h

theorem iters_pos (bound step : Int) (hstep : 0 < step) (hb : 0 < bound) :
    1 ≤ iters bound step := by
  have h := (iters_bounds bound step hstep).1
  by_contra hc
  have h0 : iters bound step = 0 := by omega
  rw [h0] at h
  simp at h
  omega

/-- A bound that is a multiple of the step is tiled exactly. -/
theorem iters_exact (bound step : Int) (hstep : 0 < step) (hb : 0 < bound)
    (hd : step ∣ bound) : (iters bound step : Int) * step = bound := by
  obtain ⟨q, hq⟩ := hd
  obtain ⟨h1, h2, _⟩ := iters_bounds bound step hstep
  have h3 := h2 hb
  have hq2 : bound = q * step := by rw [hq]; ring
  rw [hq2] at h1 h3 ⊢
  have a : q ≤ (iters (q * step) step : Int) := le_of_mul_le_mul_right h1 hstep
  have e : q * step + step = (q + 1) * step := by ring
  rw [e] at h3
  have b : (iters (q * step) step : Int) < q + 1 := lt_of_mul_lt_mul_right h3 (le_of_lt hstep)
  have : (iters (q * step) step : Int) = q := by omega
  rw [this]

theorem iters_self (step : Int) (hstep : 0 < step) : iters step step = 1 := by
  have h := iters_exact step step hstep hstep (dvd_refl _)
  have h2 : (iters step step : Int) * step = 1 * step := by rw [h]; ring
  have h3 := mul_right_cancel₀ (ne_of_gt hstep) h2
  exact_mod_cast h3

/-- The tiling loop with step 1 needs no positivity of the middle fill. -/
theorem tile_unit (g : List Char) (bound : Int) (w : List Char) (fuel : Nat)
    (hfuel : bound.toNat < fuel) :
    tile g bound 1 fuel 0 w = some (w ++ rep bound.toNat g) := by
  have h := tile_iters g bound 1 (by decide) w fuel (by rw [iters_unit]; exact hfuel)
  rw [iters_unit] at h
  exact h
/-! ## Lemmas on the rows of the output -/

theorem splitNL_length : ∀ s : List Char, (splitNL s).length = s.count '\n' + 1 := by
  intro s
  induction s with
  | nil => rfl
  | cons c cs ih =>
    by_cases hc : c = '\n'
    · simp [splitNL, hc, ih]
    · have hne : (c == '\n') = false := by simpa using hc
      cases hs : splitNL cs with
      | nil => rw [hs] at ih; simp at ih
      | cons r rs =>
        rw [hs] at ih
        simp only [splitNL, hc, if_false, hs, List.length_cons, List.count_cons, hne] at ih ⊢
        simpa using ih

theorem rowBodies_head (rw : Char → Int) (b : borderStyle) (max ml : Int)
    (lines : List (List Char)) (esc l : List Char) (h : lines.get? 0 = some l) :
    (rowBodies rw b max ml lines esc).get? 0 = some (rowBody rw b max ml esc l) := by
  cases lines with
  | nil => simp at h
  | cons x xs =>
    simp only [List.get?_cons_zero, Option.some.injEq] at h
    simp [rowBodies, h]

theorem rowBodies_succ (rw : Char → Int) (b : borderStyle) (max ml : Int) :
    ∀ (lines : List (List Char)) (esc : List Char) (i : Nat) (prev l : List Char),
      lines.get? i = some prev → lines.get? (i + 1) = some l →
        (rowBodies rw b max ml lines esc).get? (i + 1)
          = some (rowBody rw b max ml (escCont prev) l) := by
  intro lines
  induction lines with
  | nil => intro esc i prev l h; simp at h
  | cons x xs ih =>
    intro esc i prev l h1 h2
    simp only [List.get?_cons_succ] at h2
    cases i with
    | zero =>
      simp only [List.get?_cons_zero, Option.some.injEq] at h1
      simp only [rowBodies, List.get?_cons_succ]
      rw [← h1]
      exact rowBodies_head rw b max ml xs (escCont x) l h2
    | succ j =>
      simp only [List.get?_cons_succ] at h1
      simp only [rowBodies, List.get?_cons_succ]
      exact ih (escCont x) j prev l h1 h2

/-- Row `i` is the row of line `i`, entered with the carry of line `i - 1`. -/
theorem rowBodies_get (rw : Char → Int) (b : borderStyle) (max ml : Int)
    (lines : List (List Char)) (i : Nat) (l : List Char) (h : lines.get? i = some l) :
    (rowBodies rw b max ml lines []).get? i
      = some (rowBody rw b max ml (carryAt lines i) l) := by
  cases i with
  | zero => exact rowBodies_head rw b max ml lines [] l h
  | succ j =>
    have hj : j < lines.length := by
      have := List.get?_eq_some.mp h
      obtain ⟨hlt, _⟩ := this
      omega
    have hp : lines.get? j = some (lines.getD j []) := by
      rw [List.getD_eq_getElem?_getD, List.get?_eq_getElem?, List.getElem?_eq_getElem hj]
      simp
    simp only [carryAt]
    exact rowBodies_succ rw b max ml lines [] j _ l hp h

theorem rep_ne_nil (g : List Char) (hg : g ≠ []) : ∀ n : Nat, 1 ≤ n → rep n g ≠ [] := by
  intro n hn
  cases n with
  | zero => omega
  | succ k => simp [rep, hg]

theorem glyph_ne_nil (rw : Char → Int) (g : List Char) (h : 0 < widthANSI rw g) : g ≠ [] := by
  intro e
  rw [e] at h
  simp [widthANSI_nil] at h

theorem bottomRule_ne_nil (rw : Char → Int) (b : borderStyle) (lines : List (List Char))
    (hml : 0 < widthANSI rw (b borderMiddle)) (hbl : 0 < widthANSI rw (b borderBottom)) :
    bottomRule rw b lines ≠ [] := by
  have h0 := maxWidth_nonneg rw lines
  have hk := iters_pos (maxWidth rw lines + widthANSI rw (b borderMiddle) * 2)
    (widthANSI rw (b borderBottom)) hbl (by omega)
  have := rep_ne_nil (b borderBottom) (glyph_ne_nil rw _ hbl) _ hk
  simp [bottomRule, this]

theorem bottomRule_noBreak (rw : Char → Int) (b : borderStyle) (lines : List (List Char))
    (hb : ∀ i, i ≠ borderLine → '\n' ∉ b i) : '\n' ∉ bottomRule rw b lines := by
  have hBL := hb borderBottomLeft (by decide)
  have hB := hb borderBottom (by decide)
  have hBR := hb borderBottomRight (by decide)
  simp only [bottomRule, List.mem_append, not_or]
  exact ⟨⟨hBL, fun h => hB (rep_mem _ _ _ h)⟩, hBR⟩

theorem rowsText_join (rw : Char → Int) (b : borderStyle) (max ml : Int) :
    ∀ (lines : List (List Char)) (esc : List Char),
      rowsText rw b max ml lines esc = joinRows (rowBodies rw b max ml lines esc) := by
  intro lines
  induction lines with
  | nil => intro _; rfl
  | cons l ls ih =>
    intro esc
    simp [rowsText, rowText, rowBodies, joinRows, ih, List.append_assoc]

/-- The content rows loop needs only a positive middle-fill width. -/
theorem sayRows_join (rw : Char → Int) (b : borderStyle) (max ml : Int) (hml : 0 < ml)
    (lines : List (List Char)) (w : List Char) (fuel : Nat)
    (hfuel : rowsFuel rw max ml lines ≤ fuel) :
    sayRows rw b max ml fuel lines [] w
      = some (w ++ joinRows (rowBodies rw b max ml lines [])) := by
  rw [sayRows_eq rw b max ml hml lines [] w fuel hfuel, rowsText_join]

/-- The block written by `say`: top rule, line break, the content rows each
with its line break, bottom rule. -/
theorem say_rows (rw : Char → Int) (b : borderStyle) (lines : List (List Char))
    (htl : 0 < widthANSI rw (b borderTop)) (hml : 0 < widthANSI rw (b borderMiddle))
    (hbl : 0 < widthANSI rw (b borderBottom)) (w : List Char) (fuel : Nat)
    (hfuel : sayFuel rw b lines ≤ fuel) :
    say rw fuel w b lines
      = some (w ++ topRule rw b lines ++ '\n' ::
          (joinRows (rowBodies rw b (maxWidth rw lines) (widthANSI rw (b borderMiddle))
              lines [])
            ++ bottomRule rw b lines)) := by
  rw [say_eq rw b lines htl hml hbl w fuel hfuel]
  simp [sayText, rowsText_join, List.append_assoc]

/-! ## Lemmas on `escCont` by positions -/

theorem takeThrough_take :
    ∀ (t : List Char) (k : Nat), t.get? k = some 'm' →
      (∀ k', k' < k → t.get? k' ≠ some 'm') → takeThrough t = t.take (k + 1) := by
  intro t
  induction t with
  | nil => intro k h; simp at h
  | cons c cs ih =>
    intro k h hfirst
    cases k with
    | zero =>
      simp only [List.get?_cons_zero, Option.some.injEq] at h
      simp [takeThrough, h]
    | succ j =>
      have hc : c ≠ 'm' := by
        have := hfirst 0 (by omega)
        simpa using this
      simp only [List.get?_cons_succ] at h
      simp only [takeThrough, hc, if_false, List.take_succ_cons]
      rw [ih j h (fun k' hk' => by
        have := hfirst (k' + 1) (by omega)
        simpa using this)]

theorem get?_drop_add (s : List Char) (i k : Nat) :
    (s.drop i).get? k = s.get? (i + k) := by
  simp [List.get?_eq_getElem?, List.getElem?_drop]

theorem not_mem_of_get? (c : Char) :
    ∀ (t : List Char), (∀ k, t.get? k ≠ some c) → c ∉ t := by
  intro t h hm
  obtain ⟨n, hn⟩ := List.get?_of_mem hm
  exact h n hn

/-- At the position of the last introducer the carry is cut from the rest. -/
theorem escCont_at (s : List Char) (i : Nat) (hi : s.get? i = some ESC)
    (hlast : ∀ j, i < j → s.get? j ≠ some ESC) :
    escCont s = takeThrough (s.drop i) := by
  have hlt : i < s.length := (List.get?_eq_some.mp hi).1
  have hget : s[i] = ESC := by
    have := (List.get?_eq_some.mp hi).2
    simpa using this
  have hd : s.drop i = ESC :: s.drop (i + 1) := by
    rw [List.drop_eq_getElem_cons hlt, hget]
  have hne : ESC ∉ s.drop (i + 1) := by
    apply not_mem_of_get?
    intro k
    rw [get?_drop_add]
    exact hlast (i + 1 + k) (by omega)
  have hs : s = s.take i ++ ESC :: s.drop (i + 1) := by
    rw [← hd, List.take_append_drop]
  have hEm : ESC ≠ 'm' := by decide
  rw [hd]
  conv => lhs; rw [hs]
  rw [escCont_split _ _ hne]
  simp [takeThrough, hEm]

/-! ## Lemmas on lines without token -/

theorem tewiWriteErr_eq (pairs : List (List Char × List Char)) :
    ∀ (ls : List (List Char)) (w : List Char),
      tewiWriteErr pairs ls w = (tewiWrite pairs ls w, none) := by
  intro ls
  induction ls with
  | nil => intro w; rfl
  | cons c rest ih =>
    intro w
    simp only [tewiWriteErr, replacerWriteString, bufWriteString, tewiWrite]
    exact ih _

theorem tokenAt_occurs (s : List Char) (k : Token) (h : tokenAt s = some k) :
    Token.text k <:+: s := by
  have e := tokenAt_split s k h
  exact ⟨[], s.drop (Token.text k).length, by simpa using e.symm⟩

theorem replaceAux_plain (eyes tongue line : List Char) :
    ∀ (n : Nat) (s : List Char), s.length ≤ n → (∀ k : Token, ¬ Token.text k <:+: s) →
      replaceAux (oldnew eyes tongue line) n s = s := by
  intro n
  induction n with
  | zero =>
    intro s h _
    have : s = [] := List.length_eq_zero.mp (by omega)
    simp [this, replaceAux]
  | succ n ih =>
    intro s h hno
    cases s with
    | nil => simp [replaceAux]
    | cons c cs =>
      have hnone : tokenAt (c :: cs) = none := by
        cases ht : tokenAt (c :: cs) with
        | none => rfl
        | some k => exact absurd (tokenAt_occurs _ k ht) (hno k)
      simp only [replaceAux, lookup_tokenAt, hnone, Option.map_none']
      rw [ih cs (by simpa using h) (fun k hk => hno k (by
        obtain ⟨a, b, e⟩ := hk
        exact ⟨c :: a, b, by simp [← e]⟩))]

/-- Styles `classicish` and `unicode` render every skeleton to texts of the
same length: each of their glyphs is a single rune. -/
theorem render_length_classicish_unicode :
    ∀ skel : List Item,
      (render styleClassicish skel).length = (render styleUnicode skel).length := by
  intro skel
  induction skel with
  | nil => rfl
  | cons it r ih =>
    cases it with
    | role i =>
      have e : (styleClassicish i).length = (styleUnicode i).length := by
        cases i <;> rfl
      simp only [render, List.length_append, ih, e]
    | lit s => simp only [render, List.length_append, ih]

/-! ## Claims on `say` -/

/-- C1 (refuted as stated): with every rune one column wide, `say` with style
`unicode` on the single line `Hello` never writes the three rows
`┌───┐`, `│ Hello │`, `└───┘`. -/
theorem C1_counterexample :
    (∀ c ∈ helloRunes, unitWidth c = 1) ∧
    ¬ ∃ fuel, say unitWidth fuel [] styleUnicode ["Hello".toList]
        = some "┌───┐\n│ Hello │\n└───┘".toList := by
  refine ⟨fun _ _ => rfl, ?_⟩
  rintro ⟨fuel, h⟩
  have h1 := say_some_eq unitWidth styleUnicode ["Hello".toList]
    (by decide) (by decide) (by decide) [] fuel _ h
  revert h1
  decide

/-- C1 (amended): when the glyphs of style `unicode` and the letters of `Hello`
are one column wide, `say` on the single line `Hello` appends exactly three
rows separated by line breaks, the two rules holding seven fill glyphs
(`maxWidth + 2*fillWidth = 7`): `┌───────┐`, `│ Hello │`, `└───────┘`, with no
line break after the bottom rule. -/
theorem C1_hello (rw : Char → Int) (h : ∀ c ∈ helloRunes, rw c = 1)
    (w : List Char) (fuel : Nat) (hfuel : 18 ≤ fuel) :
    say rw fuel w styleUnicode ["Hello".toList]
      = some (w ++ "┌───────┐\n│ Hello │\n└───────┘".toList) := by
  have hH : rw 'H' = 1 := h _ (by decide)
  have he : rw 'e' = 1 := h _ (by decide)
  have hl : rw 'l' = 1 := h _ (by decide)
  have ho : rw 'o' = 1 := h _ (by decide)
  have hs : rw ' ' = 1 := h _ (by decide)
  have ht : rw '─' = 1 := h _ (by decide)
  have wt : widthANSI rw ['─'] = 1 := by
    simp [widthANSI, widthLoop, widthStep, ESC, ht]
  have wm : widthANSI rw [' '] = 1 := by
    simp [widthANSI, widthLoop, widthStep, ESC, hs]
  have wl : widthANSI rw ['H', 'e', 'l', 'l', 'o'] = 5 := by
    simp [widthANSI, widthLoop, widthStep, ESC, hH, he, hl, ho]
  have hmax : maxWidth rw [['H', 'e', 'l', 'l', 'o']] = 5 := by
    simp [maxWidth, wl]
  have eT : styleUnicode borderTop = ['─'] := rfl
  have eB : styleUnicode borderBottom = ['─'] := rfl
  have eM : styleUnicode borderMiddle = [' '] := rfl
  have eL : "Hello".toList = ['H', 'e', 'l', 'l', 'o'] := rfl
  have hf : sayFuel rw styleUnicode ["Hello".toList] = 18 := by
    simp [sayFuel, rowsFuel, eT, eB, eM, wt, wm, wl, hmax, iters_unit]
  rw [say_eq rw styleUnicode _ (by rw [eT, wt]; decide) (by rw [eM, wm]; decide)
    (by rw [eB, wt]; decide) w fuel (by omega)]
  simp [sayText, topRule, bottomRule, rowsText, rowText, rowBody, eT, eB, eM, wt, wm, wl, hmax, iters_unit, rep]
  rfl

/-- Witness of C1 (amended) with every rune one column wide. -/
theorem C1_hello_witness :
    say unitWidth 18 [] styleUnicode ["Hello".toList]
      = some ([] ++ "┌───────┐\n│ Hello │\n└───────┘".toList) :=
  C1_hello unitWidth (fun _ _ => rfl) [] 18 (by decide)

/-- C2 (refuted as stated): with a top glyph of display width 0 the first
tiling loop of `say` never finishes, already on the empty sequence of lines. -/
theorem C2_counterexample :
    widthANSI unitWidth (styleEmptyTop borderTop) = 0 ∧
    ¬ ∃ fuel out, say unitWidth fuel [] styleEmptyTop [] = some out := by
  refine ⟨by decide, ?_⟩
  rintro ⟨fuel, out, h⟩
  simp only [say] at h
  rw [tile_stuck _ _ _ (by decide) fuel 0 _ (by decide)] at h
  simp at h

/-- C2 (amended): for every border style whose top, bottom and middle-fill
glyphs have positive display width and every sequence of lines (the empty one
included), `say` terminates: with enough fuel the three loops finish and the
call returns the buffer extended by the rendered block. -/
theorem C2_say_terminates (rw : Char → Int) (b : borderStyle) (lines : List (List Char))
    (w : List Char)
    (htl : 0 < widthANSI rw (b borderTop)) (hml : 0 < widthANSI rw (b borderMiddle))
    (hbl : 0 < widthANSI rw (b borderBottom)) :
    ∃ n out, ∀ fuel, n ≤ fuel → say rw fuel w b lines = some (w ++ out) :=
  ⟨sayFuel rw b lines, sayText rw b lines,
    fun fuel hfuel => say_eq rw b lines htl hml hbl w fuel hfuel⟩

/-- Witness of C2 (amended): style `unicode`, no line, every rune one column wide. -/
theorem C2_say_terminates_witness :
    ∃ n out, ∀ fuel, n ≤ fuel → say unitWidth fuel [] styleUnicode [] = some ([] ++ out) :=
  C2_say_terminates unitWidth styleUnicode [] [] (by decide) (by decide) (by decide)

/-- C3: when the runes of the catalog glyphs are one column wide, for each of
the six catalog styles and every sequence of lines without line break whose
escape introducers are each followed later on the line by `m`, `say`
terminates and every row of its output (split at line breaks: top rule,
content rows, bottom rule, `k + 2` rows for `k` lines) measures
`maxWidth + 4` columns under `widthANSI`. -/
theorem C3_rows_width (rw : Char → Int) (h : ∀ c ∈ catalogRunes, rw c = 1)
    (b : borderStyle) (hb : b ∈ catalog) (lines : List (List Char))
    (hl : ∀ l ∈ lines, '\n' ∉ l ∧ escTerminated l = true) :
    ∃ n out, (∀ fuel, n ≤ fuel → say rw fuel [] b lines = some out) ∧
      (splitNL out).length = lines.length + 2 ∧
      ∀ row ∈ splitNL out, widthANSI rw row = maxWidth rw lines + 4 := by
  have hu := catalog_unit rw h b hb
  have hT := (hu borderTop (by decide)).1.2
  have hM := (hu borderMiddle (by decide)).1.2
  have hB := (hu borderBottom (by decide)).1.2
  have hsplit := splitNL_sayText rw b (fun i hi => (hu i hi).2) lines (fun l hm => (hl l hm).1)
  refine ⟨sayFuel rw b lines, sayText rw b lines, ?_, ?_, ?_⟩
  · intro fuel hfuel
    have := say_eq rw b lines (by omega) (by omega) (by omega) [] fuel hfuel
    simpa using this
  · rw [hsplit]
    simp [rowBodies_length]
  · intro row hrow
    rw [hsplit, hM] at hrow
    simp only [List.mem_cons, List.mem_append, List.mem_singleton, List.not_mem_nil,
      or_false] at hrow
    rcases hrow with hrow | hrow | hrow
    · rw [hrow]; exact topRule_width rw b hu lines
    · exact rowBodies_width rw b hu _ lines [] (meas_nil rw)
        (fun l hm => ⟨(hl l hm).2, maxWidth_ge rw lines l hm⟩) row hrow
    · rw [hrow]; exact bottomRule_width rw b hu lines

/-- Witness of C3: style `rounded`, a coloured line and a plain one, every rune
one column wide. -/
theorem C3_rows_width_witness :
    ((∀ c ∈ catalogRunes, unitWidth c = 1) ∧ styleRounded ∈ catalog ∧
      ∀ l ∈ [ESC :: "[31mred".toList, "Hello".toList], '\n' ∉ l ∧ escTerminated l = true) ∧
    ∃ n out, (∀ fuel, n ≤ fuel →
        say unitWidth fuel [] styleRounded [ESC :: "[31mred".toList, "Hello".toList]
          = some out) ∧
      (splitNL out).length = [ESC :: "[31mred".toList, "Hello".toList].length + 2 ∧
      ∀ row ∈ splitNL out, widthANSI unitWidth row
        = maxWidth unitWidth [ESC :: "[31mred".toList, "Hello".toList] + 4 :=
  ⟨⟨fun _ _ => rfl, by simp [catalog], by decide⟩,
    C3_rows_width unitWidth (fun _ _ => rfl) styleRounded (by simp [catalog])
      [ESC :: "[31mred".toList, "Hello".toList] (by decide)⟩

/-! ## Claims on `widthANSI` and `escCont` -/

/-- C4: a line without escape introducer measures the sum of the display
widths of its code points, a width reported as `-1` counting for 0. -/
theorem C4_width_sum (rw : Char → Int) (line : List Char) (h : ESC ∉ line) :
    widthANSI rw line = (line.map (fun c => if rw c = -1 then 0 else rw c)).sum := by
  unfold widthANSI
  rw [widthLoop_plain rw line h]
  simp only [zero_add]
  rfl

/-- Witness of C4: `a`, a rune of reported width -1, `b`. -/
theorem C4_width_sum_witness :
    ESC ∉ ['a', 'x', 'b'] ∧
    widthANSI (fun c => if c = 'x' then -1 else 1) ['a', 'x', 'b'] = 2 :=
  ⟨by decide,
    (C4_width_sum (fun c => if c = 'x' then -1 else 1) ['a', 'x', 'b'] (by decide)).trans
      (by decide)⟩

/-- C5: removing one well-formed escape sequence `ESC body m` (no `m` in
`body`) from a line `p ++ e ++ q` whose part `p` has no escape introducer leaves
the measured width unchanged; this holds for every `q` and every such `body`,
in particular when neither contains an escape introducer. -/
theorem C5_escape_removed (rw : Char → Int) (p body q : List Char)
    (hp : ESC ∉ p) (hbm : 'm' ∉ body) :
    widthANSI rw (p ++ (ESC :: (body ++ ['m'])) ++ q) = widthANSI rw (p ++ q) := by
  unfold widthANSI
  rw [List.append_assoc, widthLoop_append, widthLoop_append, widthLoop_append,
    widthLoop_plain rw p hp, widthLoop_escape rw body hbm]

/-- Witness of C5: `ab`, then `ESC [31m`, then `cd`. -/
theorem C5_escape_removed_witness :
    (ESC ∉ "ab".toList ∧ 'm' ∉ "[31".toList) ∧
    widthANSI unitWidth ("ab".toList ++ (ESC :: ("[31".toList ++ ['m'])) ++ "cd".toList)
      = widthANSI unitWidth ("ab".toList ++ "cd".toList) :=
  ⟨by decide, C5_escape_removed unitWidth "ab".toList "[31".toList "cd".toList
    (by decide) (by decide)⟩

/-- C6 (refuted as stated): on the line `ESC [31mred`, whose only escape
sequence is terminated by `m` within the line, `escCont` returns that sequence
`ESC [31m`, not the empty string. -/
theorem C6_counterexample :
    'm' ∈ "[31mred".toList ∧
    escCont (ESC :: "[31mred".toList) = ESC :: "[31m".toList ∧
    escCont (ESC :: "[31mred".toList) ≠ [] := by
  decide

/-- C6 (amended): `escCont` returns the empty string for a line with no escape
introducer; for a line whose last introducer is followed by a terminator `m`
it returns the text of that last sequence, introducer through first `m`
inclusive (so `ESC [31mred` gives `ESC [31m`); and for a line whose last
sequence is still open at the end of the line it returns that sequence, from
the introducer to the end of the line. -/
theorem C6_escCont (p body rest : List Char)
    (hbe : ESC ∉ body) (hbm : 'm' ∉ body) (hr : ESC ∉ rest) :
    (ESC ∉ p → escCont p = []) ∧
    escCont (p ++ ESC :: (body ++ 'm' :: rest)) = ESC :: (body ++ ['m']) ∧
    escCont (p ++ ESC :: body) = ESC :: body := by
  refine ⟨escCont_plain p, ?_, ?_⟩
  · rw [escCont_split p _ (by
      simp only [List.mem_append, List.mem_cons, not_or]
      exact ⟨hbe, by decide, hr⟩)]
    rw [takeThrough_first rest body hbm]
  · rw [escCont_split p _ hbe, takeThrough_open body hbm]

/-- Witness of C6 (amended): prefix `ab`, sequence `ESC [31m`, rest `red`. -/
theorem C6_escCont_witness :
    (ESC ∉ "ab".toList ∧ 'm' ∉ "[31".toList ∧ ESC ∉ "red".toList) ∧
    escCont "ab".toList = [] ∧
    escCont ("ab".toList ++ ESC :: ("[31".toList ++ 'm' :: "red".toList))
      = ESC :: ("[31".toList ++ ['m']) ∧
    escCont ("ab".toList ++ ESC :: "[31".toList) = ESC :: "[31".toList :=
  have h := C6_escCont "ab".toList "[31".toList "red".toList
    (by decide) (by decide) (by decide)
  ⟨by decide, h.1 (by decide), h.2.1, h.2.2⟩

/-! ## Claims on `tewi` -/

/-- C7: `tewi` appends, in template order, a line break followed by the
substituted text of each line that does not start with `$the_cow`, `#` or
`EOC`; the lines with one of these prefixes contribute nothing, and a template
made only of such lines leaves the buffer unchanged. -/
theorem C7_tewi_output (w : List Char) (cow : List (List Char))
    (eyes tongue line : List Char) :
    tewi w cow eyes tongue line
        = w ++ figure (oldnew eyes tongue line)
            (cow.filter (fun c => !("$the_cow".toList.isPrefixOf c
              || "#".toList.isPrefixOf c || "EOC".toList.isPrefixOf c))) ∧
      ((∀ c ∈ cow, "$the_cow".toList.isPrefixOf c = true
          ∨ "#".toList.isPrefixOf c = true ∨ "EOC".toList.isPrefixOf c = true) →
        tewi w cow eyes tongue line = w) := by
  constructor
  · exact tewi_eq w cow eyes tongue line
  · intro h
    rw [tewi_eq]
    have : cow.filter (fun c => !isDirective c) = [] := by
      rw [List.filter_eq_nil_iff]
      intro c hc
      have := h c hc
      simp only [isDirective, hasPrefix, Bool.not_eq_true, Bool.not_eq_false',
        Bool.or_eq_true, Bool.not_not]
      tauto
    rw [this]
    simp [figure]

/-- Witness of C7: two directive lines around one content line, and a template
of directive lines only. -/
theorem C7_tewi_output_witness :
    tewi "x".toList ["# a cow".toList, "  (eyes)".toList, "EOC".toList]
        "oo".toList "U".toList "\\".toList = "x\n  (oo)".toList ∧
      tewi "x".toList ["$the_cow = <<EOC;".toList, "#".toList, "EOC".toList]
        "oo".toList "U".toList "\\".toList = "x".toList :=
  ⟨(C7_tewi_output "x".toList ["# a cow".toList, "  (eyes)".toList, "EOC".toList]
      "oo".toList "U".toList "\\".toList).1.trans (by decide),
    (C7_tewi_output "x".toList ["$the_cow = <<EOC;".toList, "#".toList, "EOC".toList]
      "oo".toList "U".toList "\\".toList).2 (by decide)⟩

/-- C8: for every content line `tewi` appends a line break and the result of
one left-to-right pass over the original line: the line splits into
non-overlapping token occurrences, taken leftmost first, and the characters
between them (the pieces put back together are the line), each token is
replaced by its value and every other character copied; replaced text is not
scanned again.  So the line `eyes` with eyes `tongue` gives `tongue` whatever
the tongue value, and the line backslash-backslash-at gives backslash-at. -/
theorem C8_single_pass (w c eyes tongue line : List Char) (hc : isDirective c = false) :
    sourceText (segments c.length c) = c ∧
    tewi w [c] eyes tongue line
      = w ++ '\n' :: substText eyes tongue line (segments c.length c) ∧
    tewi w ["eyes".toList] "tongue".toList tongue line = w ++ "\ntongue".toList ∧
    tewi w ["\\\\@".toList] eyes tongue line = w ++ "\n\\@".toList := by
  refine ⟨sourceText_segments _ c (le_refl _), ?_, ?_, ?_⟩
  · rw [tewi_eq]
    simp [hc, figure, replace_segments]
  · rw [tewi_eq]
    have e : segments "eyes".toList.length "eyes".toList = [Segment.token Token.eyes] := by
      decide
    have f : List.filter (fun c => !isDirective c) ["eyes".toList] = ["eyes".toList] := by
      decide
    rw [f]
    simp only [figure, replace_segments, e, substText, Token.value]
    simp
  · rw [tewi_eq]
    have e : segments "\\\\@".toList.length "\\\\@".toList
        = [Segment.token Token.backslash, Segment.char '@'] := by
      decide
    have f : List.filter (fun c => !isDirective c) ["\\\\@".toList] = ["\\\\@".toList] := by
      decide
    rw [f]
    simp only [figure, replace_segments, e, substText, Token.value]
    simp

/-- Witness of C8: a line with text around and between tokens, the eyes value
holding a token. -/
theorem C8_single_pass_witness :
    isDirective " (eyes) \\\\@ $thoughts".toList = false ∧
    tewi [] [" (eyes) \\\\@ $thoughts".toList] "tongue".toList "U".toList "o".toList
      = "\n (tongue) \\@ o".toList :=
  ⟨by decide,
    (C8_single_pass [] " (eyes) \\\\@ $thoughts".toList "tongue".toList "U".toList
      "o".toList (by decide)).2.1.trans (by decide)⟩

/-- C9: with eyes `oo`, an empty tongue and a backslash pointer, for a
template made of directive lines followed by content lines that are each a
concatenation of tokens, `tewi` writes what it writes for the content lines
alone, namely a line break and the values of the tokens for each content line;
this text holds no occurrence of `$thoughts`, `eyes` or `tongue`.  The content
lines `$thoughts`, `eyes`, `tongue` give line break, backslash, line break,
`oo`, line break. -/
theorem C9_placeholders (w : List Char) (dirs : List (List Char)) (tl : List (List Token))
    (hd : ∀ d ∈ dirs, isDirective d = true) :
    tewi w (dirs ++ tl.map tokensText) "oo".toList [] "\\".toList
        = tewi w (tl.map tokensText) "oo".toList [] "\\".toList ∧
      tewi w (dirs ++ tl.map tokensText) "oo".toList [] "\\".toList
        = w ++ tokensFigure "oo".toList [] "\\".toList tl ∧
      ¬ "$thoughts".toList <:+: tokensFigure "oo".toList [] "\\".toList tl ∧
      ¬ "eyes".toList <:+: tokensFigure "oo".toList [] "\\".toList tl ∧
      ¬ "tongue".toList <:+: tokensFigure "oo".toList [] "\\".toList tl ∧
      tewi w (dirs ++ ["$thoughts".toList, "eyes".toList, "tongue".toList])
          "oo".toList [] "\\".toList = w ++ "\n\\\noo\n".toList := by
  have h1 : tewi w (dirs ++ tl.map tokensText) "oo".toList [] "\\".toList
      = w ++ tokensFigure "oo".toList [] "\\".toList tl := by
    rw [tewi_eq, List.filter_append, filter_directives dirs hd, filter_tokenLines,
      List.nil_append, figure_tokens]
  have h2 : tewi w (tl.map tokensText) "oo".toList [] "\\".toList
      = w ++ tokensFigure "oo".toList [] "\\".toList tl := by
    rw [tewi_eq, filter_tokenLines, figure_tokens]
  refine ⟨h1.trans h2.symm, h1, ?_, ?_, ?_, ?_⟩
  · intro h
    have := tokensFigure_runes tl '$' (h.subset (by decide))
    revert this; decide
  · intro h
    have := tokensFigure_runes tl 'e' (h.subset (by decide))
    revert this; decide
  · intro h
    have := tokensFigure_runes tl 't' (h.subset (by decide))
    revert this; decide
  · rw [tewi_eq, List.filter_append, filter_directives dirs hd, List.nil_append]
    congr 1

/-- Witness of C9: three directive lines before the three content lines. -/
theorem C9_placeholders_witness :
    (∀ d ∈ ["# comment".toList, "$the_cow = <<EOC;".toList, "EOC".toList],
      isDirective d = true) ∧
    tewi [] (["# comment".toList, "$the_cow = <<EOC;".toList, "EOC".toList]
        ++ ["$thoughts".toList, "eyes".toList, "tongue".toList])
      "oo".toList [] "\\".toList = "\n\\\noo\n".toList :=
  ⟨by decide,
    (C9_placeholders [] ["# comment".toList, "$the_cow = <<EOC;".toList, "EOC".toList]
      [[Token.thoughts], [Token.eyes], [Token.tongue]] (by decide)).2.2.2.2.2⟩

/-! ## Claims on the catalog -/

/-- C10 (refuted as stated): when the box-drawing runes are two columns wide
and the other runes one, the line `Hello` gives rules of seven glyphs in style
`classicish` and of four glyphs in style `unicode`, and no style-independent
skeleton renders to the output of `say` in both styles. -/
theorem C10_counterexample :
    say eaWidth 8 [] styleClassicish ["Hello".toList]
      = some " _______ \n< Hello >\n ------- ".toList ∧
    say eaWidth 8 [] styleUnicode ["Hello".toList]
      = some "┌────┐\n│ Hello │\n└────┘".toList ∧
    ¬ ∃ skel : List Item, ∀ b ∈ catalog,
      ∃ n, ∀ fuel, n ≤ fuel →
        say eaWidth fuel [] b ["Hello".toList] = some (render b skel) := by
  refine ⟨by decide, by decide, ?_⟩
  rintro ⟨skel, h⟩
  obtain ⟨n1, h1⟩ := h styleClassicish (by simp [catalog])
  obtain ⟨n2, h2⟩ := h styleUnicode (by simp [catalog])
  have e1 := say_some_eq eaWidth styleClassicish ["Hello".toList]
    (by decide) (by decide) (by decide) [] n1 _ (h1 n1 (le_refl _))
  have e2 := say_some_eq eaWidth styleUnicode ["Hello".toList]
    (by decide) (by decide) (by decide) [] n2 _ (h2 n2 (le_refl _))
  have hl := render_length_classicish_unicode skel
  rw [e1, e2] at hl
  revert hl
  decide

/-- C10 (amended): when the runes of the catalog glyphs are one column wide,
for every sequence of lines there is a style-independent skeleton,
`skeleton rw lines`
(border roles and literal texts: the line breaks, the input lines in order,
the escape carries and the resets), such that for every catalog style `say`
terminates and writes the skeleton with each role replaced by that style's
glyph; two catalog styles therefore differ only in border glyphs. -/
theorem C10_skeleton (rw : Char → Int) (h : ∀ c ∈ catalogRunes, rw c = 1)
    (lines : List (List Char)) :
    ∃ skel : List Item, skel = skeleton rw lines ∧ ∀ b ∈ catalog,
      ∃ n, ∀ fuel, n ≤ fuel → say rw fuel [] b lines = some (render b skel) := by
  refine ⟨skeleton rw lines, rfl, fun b hb => ⟨sayFuel rw b lines, fun fuel hfuel => ?_⟩⟩
  have hu := catalog_unit rw h b hb
  have hT := (hu borderTop (by decide)).1.2
  have hM := (hu borderMiddle (by decide)).1.2
  have hB := (hu borderBottom (by decide)).1.2
  rw [render_skeleton rw b lines hT hM hB,
    say_eq rw b lines (by omega) (by omega) (by omega) [] fuel hfuel]
  simp

/-- Witness of C10 (amended): a coloured line followed by a plain one, every rune one
column wide; the six styles render one common skeleton. -/
theorem C10_skeleton_witness :
    (∀ c ∈ catalogRunes, unitWidth c = 1) ∧
    ∃ skel : List Item,
      skel = skeleton unitWidth [ESC :: "[31mred".toList, "Hello".toList] ∧
      ∀ b ∈ catalog, ∃ n, ∀ fuel, n ≤ fuel →
        say unitWidth fuel [] b [ESC :: "[31mred".toList, "Hello".toList]
          = some (render b skel) :=
  ⟨fun _ _ => rfl,
    C10_skeleton unitWidth (fun _ _ => rfl) [ESC :: "[31mred".toList, "Hello".toList]⟩

/-- C11: for every border style whose top and bottom glyphs are one column wide,
with `fillWidth` the width of the middle-fill glyph, `say` on the empty
sequence of lines terminates and writes exactly: top-left glyph, the top glyph
`2*fillWidth` times, top-right glyph, one line break, bottom-left glyph, the
bottom glyph `2*fillWidth` times, bottom-right glyph, with no content row; the
tiled interior of both rules is `2*fillWidth` columns. -/
theorem C11_empty_frame (rw : Char → Int) (b : borderStyle) (w : List Char)
    (htl : widthANSI rw (b borderTop) = 1) (hbl : widthANSI rw (b borderBottom) = 1) :
    (∃ n, ∀ fuel, n ≤ fuel →
      say rw fuel w b []
        = some (w ++ b borderTopLeft
            ++ rep (2 * widthANSI rw (b borderMiddle)).toNat (b borderTop)
            ++ b borderTopRight ++ ['\n'] ++ b borderBottomLeft
            ++ rep (2 * widthANSI rw (b borderMiddle)).toNat (b borderBottom)
            ++ b borderBottomRight)) ∧
    (0 ≤ widthANSI rw (b borderMiddle) →
      ((2 * widthANSI rw (b borderMiddle)).toNat : Int) * widthANSI rw (b borderTop)
          = 2 * widthANSI rw (b borderMiddle) ∧
      ((2 * widthANSI rw (b borderMiddle)).toNat : Int) * widthANSI rw (b borderBottom)
          = 2 * widthANSI rw (b borderMiddle)) ∧
    (0 ≤ widthANSI rw (b borderMiddle) → Closed rw (b borderTop) →
      Closed rw (b borderBottom) →
      widthANSI rw (rep (2 * widthANSI rw (b borderMiddle)).toNat (b borderTop))
          = 2 * widthANSI rw (b borderMiddle) ∧
      widthANSI rw (rep (2 * widthANSI rw (b borderMiddle)).toNat (b borderBottom))
          = 2 * widthANSI rw (b borderMiddle)) := by
  have hmax : maxWidth rw [] = 0 := rfl
  have e2 : (0 : Int) + widthANSI rw (b borderMiddle) * 2
      = 2 * widthANSI rw (b borderMiddle) := by ring
  refine ⟨⟨(2 * widthANSI rw (b borderMiddle)).toNat + 1, fun fuel hfuel => ?_⟩, ?_, ?_⟩
  · simp only [say, hmax, htl, hbl, e2]
    rw [tile_unit _ _ _ fuel (by omega)]
    simp only [sayRows]
    rw [tile_unit _ _ _ fuel (by omega)]
  · intro h0
    rw [htl, hbl, Int.toNat_of_nonneg (by omega)]
    simp
  · intro h0 hT hB
    have h1 := (meas_rep rw (b borderTop) 1 ⟨hT, htl⟩
      (2 * widthANSI rw (b borderMiddle)).toNat).2
    have h2 := (meas_rep rw (b borderBottom) 1 ⟨hB, hbl⟩
      (2 * widthANSI rw (b borderMiddle)).toNat).2
    rw [h1, h2, Int.toNat_of_nonneg (by omega)]
    simp

/-- Witness of C11: style `thick`, every rune one column wide. -/
theorem C11_empty_frame_witness :
    (widthANSI unitWidth (styleThick borderTop) = 1 ∧
      widthANSI unitWidth (styleThick borderBottom) = 1) ∧
    ∃ n, ∀ fuel, n ≤ fuel → say unitWidth fuel [] styleThick [] = some "┏━━┓\n┗━━┛".toList :=
  ⟨by decide,
    (C11_empty_frame unitWidth styleThick [] (by decide) (by decide)).1⟩

/-- C12 (refuted as stated): with a one-column top glyph `-` and a two-column
bottom glyph `＝` (all three widths positive), the single line `a` gives a top
rule `+---+` of 5 columns and a bottom rule `+＝＝+` of 6 columns. -/
theorem C12_counterexample :
    (0 < widthANSI wideWidth (styleWideBottom borderTop) ∧
      0 < widthANSI wideWidth (styleWideBottom borderMiddle) ∧
      0 < widthANSI wideWidth (styleWideBottom borderBottom)) ∧
    say wideWidth 8 [] styleWideBottom ["a".toList] = some "+---+\n| a |\n+＝＝+".toList ∧
    widthANSI wideWidth "+---+".toList = 5 ∧
    widthANSI wideWidth "+＝＝+".toList = 6 := by
  decide

/-- C12 (amended): for every border style whose top, bottom and middle-fill
glyphs have positive display width and every single line of `n` columns, `say`
terminates and writes a top rule holding the top glyph `kt` times and a bottom
rule holding the bottom glyph `kb` times; each tiled width (count times glyph
width) is at least `n + 2*fillWidth` and exceeds `maxWidth + 2*fillWidth` by
less than one glyph width; the two rules tile the same number of columns when
the top and bottom glyphs have the same width. -/
theorem C12_rules (rw : Char → Int) (b : borderStyle) (line w : List Char)
    (htl : 0 < widthANSI rw (b borderTop)) (hml : 0 < widthANSI rw (b borderMiddle))
    (hbl : 0 < widthANSI rw (b borderBottom)) :
    ∃ kt kb : Nat,
      (∃ n, ∀ fuel, n ≤ fuel →
        say rw fuel w b [line]
          = some (w ++ (b borderTopLeft ++ rep kt (b borderTop) ++ b borderTopRight)
              ++ ['\n']
              ++ rowText rw b (maxWidth rw [line]) (widthANSI rw (b borderMiddle)) [] line
              ++ (b borderBottomLeft ++ rep kb (b borderBottom) ++ b borderBottomRight))) ∧
      widthANSI rw line + 2 * widthANSI rw (b borderMiddle)
        ≤ kt * widthANSI rw (b borderTop) ∧
      (kt : Int) * widthANSI rw (b borderTop)
        < maxWidth rw [line] + 2 * widthANSI rw (b borderMiddle)
            + widthANSI rw (b borderTop) ∧
      widthANSI rw line + 2 * widthANSI rw (b borderMiddle)
        ≤ kb * widthANSI rw (b borderBottom) ∧
      (kb : Int) * widthANSI rw (b borderBottom)
        < maxWidth rw [line] + 2 * widthANSI rw (b borderMiddle)
            + widthANSI rw (b borderBottom) ∧
      (widthANSI rw (b borderTop) = widthANSI rw (b borderBottom) →
        (kt : Int) * widthANSI rw (b borderTop) = kb * widthANSI rw (b borderBottom)) ∧
      (Closed rw (b borderTop) →
        widthANSI rw (rep kt (b borderTop)) = kt * widthANSI rw (b borderTop)) ∧
      (Closed rw (b borderBottom) →
        widthANSI rw (rep kb (b borderBottom)) = kb * widthANSI rw (b borderBottom)) := by
  have hn : widthANSI rw line ≤ maxWidth rw [line] := maxWidth_ge rw [line] line (by simp)
  have h0 : 0 ≤ maxWidth rw [line] := maxWidth_nonneg rw [line]
  have hp : 0 < maxWidth rw [line] + widthANSI rw (b borderMiddle) * 2 := by omega
  obtain ⟨t1, t2, _⟩ := iters_bounds
    (maxWidth rw [line] + widthANSI rw (b borderMiddle) * 2) (widthANSI rw (b borderTop)) htl
  obtain ⟨b1, b2, _⟩ := iters_bounds
    (maxWidth rw [line] + widthANSI rw (b borderMiddle) * 2) (widthANSI rw (b borderBottom)) hbl
  have t3 := t2 hp
  have b3 := b2 hp
  refine ⟨iters (maxWidth rw [line] + widthANSI rw (b borderMiddle) * 2)
      (widthANSI rw (b borderTop)),
    iters (maxWidth rw [line] + widthANSI rw (b borderMiddle) * 2)
      (widthANSI rw (b borderBottom)),
    ⟨sayFuel rw b [line], fun fuel hfuel => ?_⟩, by linarith, by linarith, by linarith,
    by linarith, fun e => by rw [e], fun hc => ?_, fun hc => ?_⟩
  · rw [say_eq rw b [line] htl hml hbl w fuel hfuel]
    simp [sayText, topRule, bottomRule, rowsText, List.append_assoc]
  · exact (meas_rep rw (b borderTop) _ ⟨hc, rfl⟩ _).2
  · exact (meas_rep rw (b borderBottom) _ ⟨hc, rfl⟩ _).2

/-- Witness of C12 (amended): style `unicode`, the line `Hello`, every rune one
column wide. -/
theorem C12_rules_witness :
    (0 < widthANSI unitWidth (styleUnicode borderTop) ∧
      0 < widthANSI unitWidth (styleUnicode borderMiddle) ∧
      0 < widthANSI unitWidth (styleUnicode borderBottom)) ∧
    ∃ kt kb : Nat,
      widthANSI unitWidth "Hello".toList + 2 * widthANSI unitWidth (styleUnicode borderMiddle)
        ≤ kt * widthANSI unitWidth (styleUnicode borderTop) ∧
      widthANSI unitWidth "Hello".toList + 2 * widthANSI unitWidth (styleUnicode borderMiddle)
        ≤ kb * widthANSI unitWidth (styleUnicode borderBottom) ∧
      (kt : Int) * widthANSI unitWidth (styleUnicode borderTop)
        = kb * widthANSI unitWidth (styleUnicode borderBottom) :=
  ⟨by decide,
    match C12_rules unitWidth styleUnicode "Hello".toList [] (by decide) (by decide)
      (by decide) with
    | ⟨kt, kb, _, h1, _, h3, _, h5, _⟩ => ⟨kt, kb, h1, h3, h5 (by decide)⟩⟩

/-- C13: for every border style whose top, bottom and middle-fill glyphs have
positive display width and whose frame glyphs hold no line break, and every
sequence of `k` lines without line break, `say` terminates and its output
holds exactly `k + 1` line breaks: split at them it is the top rule, then one
content row per input line in input order (row `i` holds line `i`), then the
bottom rule; the output ends with the bottom-right glyph and its last
character is not a line break. -/
theorem C13_line_breaks (rw : Char → Int) (b : borderStyle) (lines : List (List Char))
    (htl : 0 < widthANSI rw (b borderTop)) (hml : 0 < widthANSI rw (b borderMiddle))
    (hbl : 0 < widthANSI rw (b borderBottom))
    (hb : ∀ i, i ≠ borderLine → '\n' ∉ b i) (hl : ∀ l ∈ lines, '\n' ∉ l) :
    ∃ n out, (∀ fuel, n ≤ fuel → say rw fuel [] b lines = some out) ∧
      out.count '\n' = lines.length + 1 ∧
      (∃ rows : List (List Char),
        splitNL out = topRule rw b lines :: (rows ++ [bottomRule rw b lines]) ∧
        rows.length = lines.length ∧
        ∀ i l, lines.get? i = some l → ∃ pre post, rows.get? i = some (pre ++ l ++ post)) ∧
      b borderBottomRight <:+ out ∧
      out ≠ [] ∧ out.getLast? ≠ some '\n' := by
  have hsplit := splitNL_sayText rw b hb lines hl
  have hne := bottomRule_ne_nil rw b lines hml hbl
  have hnb := bottomRule_noBreak rw b lines hb
  have hout : sayText rw b lines
      = (topRule rw b lines ++ ['\n']
          ++ rowsText rw b (maxWidth rw lines) (widthANSI rw (b borderMiddle)) lines [])
        ++ bottomRule rw b lines := rfl
  refine ⟨sayFuel rw b lines, sayText rw b lines, ?_, ?_, ?_, ?_, ?_, ?_⟩
  · intro fuel hfuel
    have := say_eq rw b lines htl hml hbl [] fuel hfuel
    simpa using this
  · have h := splitNL_length (sayText rw b lines)
    rw [hsplit] at h
    simp only [List.length_cons, List.length_append, rowBodies_length,
      List.length_nil] at h
    omega
  · refine ⟨rowBodies rw b (maxWidth rw lines) (widthANSI rw (b borderMiddle)) lines [],
      hsplit, rowBodies_length _ _ _ _ _ _, fun i l h => ?_⟩
    rw [rowBodies_get rw b _ _ lines i l h]
    refine ⟨carryAt lines i ++ b borderLeft ++ b borderMiddle,
      rep (iters (maxWidth rw lines - (widthANSI rw l - widthANSI rw (b borderMiddle)))
          (widthANSI rw (b borderMiddle))) (b borderMiddle)
        ++ b borderRight ++ (if carryAt lines i ≠ [] then resetSeq else []), ?_⟩
    simp [rowBody, List.append_assoc]
  · refine ⟨(topRule rw b lines ++ ['\n']
          ++ rowsText rw b (maxWidth rw lines) (widthANSI rw (b borderMiddle)) lines [])
        ++ (b borderBottomLeft
          ++ rep (iters (maxWidth rw lines + widthANSI rw (b borderMiddle) * 2)
              (widthANSI rw (b borderBottom))) (b borderBottom)), ?_⟩
    rw [hout]
    simp [bottomRule, List.append_assoc]
  · rw [hout]
    simp [hne]
  · rw [hout, List.getLast?_append_of_ne_nil _ hne]
    intro h
    exact hnb (List.mem_of_getLast?_eq_some h)

/-- Witness of C13: style `think`, three lines, every rune one column wide. -/
theorem C13_line_breaks_witness :
    ((0 < widthANSI unitWidth (styleThink borderTop) ∧
        0 < widthANSI unitWidth (styleThink borderMiddle) ∧
        0 < widthANSI unitWidth (styleThink borderBottom)) ∧
      (∀ l ∈ ["a".toList, "".toList, "bc".toList], '\n' ∉ l)) ∧
    ∃ n out, (∀ fuel, n ≤ fuel →
        say unitWidth fuel [] styleThink ["a".toList, "".toList, "bc".toList] = some out) ∧
      out.count '\n' = ["a".toList, "".toList, "bc".toList].length + 1 ∧
      out ≠ [] ∧ out.getLast? ≠ some '\n' :=
  ⟨by decide,
    match C13_line_breaks unitWidth styleThink ["a".toList, "".toList, "bc".toList]
      (by decide) (by decide) (by decide) (by intro i _; cases i <;> decide)
      (by decide) with
    | ⟨n, out, h1, h2, _, _, h5, h6⟩ => ⟨n, out, h1, h2, h5, h6⟩⟩

/-- C14 (refuted as stated): with the two-column fill glyph `U+3000` and the
lines `ab`, `a` (`maxWidth = 2`, `framePadWidth = 6`), the interior of the row
of `a` is fill, `a`, two fills: 7 columns, while the row of `ab` has 6. -/
theorem C14_counterexample :
    (0 < widthANSI wideWidth (styleWideFill borderTop) ∧
      0 < widthANSI wideWidth (styleWideFill borderMiddle) ∧
      0 < widthANSI wideWidth (styleWideFill borderBottom)) ∧
    say wideWidth 8 [] styleWideFill ["ab".toList, "a".toList]
      = some "+------+\n|　ab　|\n|　a　　|\n+------+".toList ∧
    maxWidth wideWidth ["ab".toList, "a".toList]
      + 2 * widthANSI wideWidth (styleWideFill borderMiddle) = 6 ∧
    widthANSI wideWidth "　ab　".toList = 6 ∧
    widthANSI wideWidth "　a　　".toList = 7 := by
  decide

/-- C14 (amended): for every border style with positive top, bottom and
middle-fill widths whose fill glyph leaves the width scan outside an escape
sequence, every sequence of lines and every input line whose escape
introducers are each terminated by `m`: the interior of that line's content
row (fill glyph, line, `k` fill glyphs) measures
`fillWidth + width(line) + k*fillWidth` columns, which is at least
`framePadWidth = maxWidth + 2*fillWidth` and less than
`framePadWidth + fillWidth`; it is exactly `framePadWidth` when `fillWidth`
divides `maxWidth - width(line)`, in particular whenever `fillWidth = 1`. -/
theorem C14_interior (rw : Char → Int) (b : borderStyle) (lines : List (List Char))
    (i : Nat) (line w : List Char)
    (htl : 0 < widthANSI rw (b borderTop)) (hml : 0 < widthANSI rw (b borderMiddle))
    (hbl : 0 < widthANSI rw (b borderBottom)) (hM : Closed rw (b borderMiddle))
    (hi : lines.get? i = some line) (hesc : escTerminated line = true) :
    ∃ (rows : List (List Char)) (k : Nat),
      (∃ n, ∀ fuel, n ≤ fuel →
        say rw fuel w b lines
          = some (w ++ topRule rw b lines ++ '\n' ::
              (joinRows rows ++ bottomRule rw b lines))) ∧
      rows.get? i
        = some (carryAt lines i ++ b borderLeft
            ++ (b borderMiddle ++ line ++ rep k (b borderMiddle))
            ++ b borderRight ++ (if carryAt lines i ≠ [] then resetSeq else [])) ∧
      widthANSI rw (b borderMiddle ++ line ++ rep k (b borderMiddle))
        = widthANSI rw (b borderMiddle) + widthANSI rw line
            + k * widthANSI rw (b borderMiddle) ∧
      maxWidth rw lines + 2 * widthANSI rw (b borderMiddle)
        ≤ widthANSI rw (b borderMiddle ++ line ++ rep k (b borderMiddle)) ∧
      widthANSI rw (b borderMiddle ++ line ++ rep k (b borderMiddle))
        < maxWidth rw lines + 2 * widthANSI rw (b borderMiddle)
            + widthANSI rw (b borderMiddle) ∧
      (widthANSI rw (b borderMiddle) ∣ maxWidth rw lines - widthANSI rw line →
        widthANSI rw (b borderMiddle ++ line ++ rep k (b borderMiddle))
          = maxWidth rw lines + 2 * widthANSI rw (b borderMiddle)) := by
  have hmem : line ∈ lines := List.get?_mem hi
  have hle := maxWidth_ge rw lines line hmem
  have hB : 0 < maxWidth rw lines - (widthANSI rw line - widthANSI rw (b borderMiddle)) := by
    omega
  obtain ⟨k1, k2, _⟩ := iters_bounds
    (maxWidth rw lines - (widthANSI rw line - widthANSI rw (b borderMiddle)))
    (widthANSI rw (b borderMiddle)) hml
  have k3 := k2 hB
  have hmeas := (meas_append rw _ _ _ _
    (meas_append rw _ _ _ _ ⟨hM, rfl⟩ (meas_terminated rw line hesc))
    (meas_rep rw (b borderMiddle) _ ⟨hM, rfl⟩
      (iters (maxWidth rw lines - (widthANSI rw line - widthANSI rw (b borderMiddle)))
        (widthANSI rw (b borderMiddle))))).2
  refine ⟨rowBodies rw b (maxWidth rw lines) (widthANSI rw (b borderMiddle)) lines [],
    iters (maxWidth rw lines - (widthANSI rw line - widthANSI rw (b borderMiddle)))
      (widthANSI rw (b borderMiddle)),
    ⟨sayFuel rw b lines, fun fuel hfuel => say_rows rw b lines htl hml hbl w fuel hfuel⟩,
    ?_, hmeas, ?_, ?_, ?_⟩
  · rw [rowBodies_get rw b _ _ lines i line hi]
    simp [rowBody, List.append_assoc]
  · rw [hmeas]; linarith
  · rw [hmeas]; linarith
  · intro hd
    have hd2 : widthANSI rw (b borderMiddle)
        ∣ maxWidth rw lines - (widthANSI rw line - widthANSI rw (b borderMiddle)) := by
      have e : maxWidth rw lines - (widthANSI rw line - widthANSI rw (b borderMiddle))
          = (maxWidth rw lines - widthANSI rw line) + widthANSI rw (b borderMiddle) := by
        ring
      rw [e]
      exact dvd_add hd (dvd_refl _)
    have hx := iters_exact _ _ hml hB hd2
    rw [hmeas, hx]
    ring

/-- Witness of C14 (amended): the two-column fill glyph, lines `ab` and `a`,
row of `a`. -/
theorem C14_interior_witness :
    ((0 < widthANSI wideWidth (styleWideFill borderTop) ∧
        0 < widthANSI wideWidth (styleWideFill borderMiddle) ∧
        0 < widthANSI wideWidth (styleWideFill borderBottom)) ∧
      Closed wideWidth (styleWideFill borderMiddle) ∧
      ["ab".toList, "a".toList].get? 1 = some "a".toList ∧
      escTerminated "a".toList = true) ∧
    ∃ k : Nat,
      maxWidth wideWidth ["ab".toList, "a".toList]
          + 2 * widthANSI wideWidth (styleWideFill borderMiddle)
        ≤ widthANSI wideWidth
            (styleWideFill borderMiddle ++ "a".toList ++ rep k (styleWideFill borderMiddle)) ∧
      widthANSI wideWidth
          (styleWideFill borderMiddle ++ "a".toList ++ rep k (styleWideFill borderMiddle))
        < maxWidth wideWidth ["ab".toList, "a".toList]
            + 2 * widthANSI wideWidth (styleWideFill borderMiddle)
            + widthANSI wideWidth (styleWideFill borderMiddle) :=
  ⟨⟨by decide, closed_plain wideWidth _ (by decide), by decide, by decide⟩,
    match C14_interior wideWidth styleWideFill ["ab".toList, "a".toList] 1 "a".toList []
      (by decide) (by decide) (by decide) (closed_plain wideWidth _ (by decide))
      (by decide) (by decide) with
    | ⟨_, k, _, _, _, h4, h5, _⟩ => ⟨k, h4, h5⟩⟩

/-- C15 (refuted as stated): with the lines `ESC [31mab` and `cd`, both of
width `maxWidth = 2`, the content row of `cd` is not left border, one fill,
`cd`, one fill, right border: it starts with the carry `ESC [31m` and ends
with the reset `ESC [0m`.  Moreover a positive middle-fill width alone does
not give any row: with an empty top glyph `say` never returns; and for the
single line `ESC [31` of width 0, whose escape sequence is not terminated, the
interior fill, text, fill measures 1 column, not `0 + 2*fillWidth = 2`. -/
theorem C15_counterexample :
    (0 < widthANSI unitWidth (styleEmptyTop borderMiddle) ∧
      ¬ ∃ fuel out, say unitWidth fuel [] styleEmptyTop ["a".toList] = some out) ∧
    (say unitWidth 8 [] styleUnicode [ESC :: "[31".toList]
        = some ("┌──┐\n│ ".toList ++ ESC :: "[31 │\n└──┘".toList) ∧
      widthANSI unitWidth (ESC :: "[31".toList) = 0 ∧
      widthANSI unitWidth (styleUnicode borderMiddle) = 1 ∧
      widthANSI unitWidth
        (styleUnicode borderMiddle ++ ESC :: "[31".toList ++ styleUnicode borderMiddle) = 1) ∧
    0 < widthANSI unitWidth (styleUnicode borderMiddle) ∧
    widthANSI unitWidth "cd".toList
      = maxWidth unitWidth [ESC :: "[31mab".toList, "cd".toList] ∧
    say unitWidth 8 [] styleUnicode [ESC :: "[31mab".toList, "cd".toList]
      = some ("┌────┐\n│ ".toList ++ ESC :: "[31mab │\n".toList
          ++ (ESC :: "[31m│ cd │".toList ++ ESC :: "[0m".toList)
          ++ "\n└────┘".toList) ∧
    ESC :: "[31m│ cd │".toList ++ ESC :: "[0m".toList
      ≠ styleUnicode borderLeft ++ styleUnicode borderMiddle ++ "cd".toList
          ++ styleUnicode borderMiddle ++ styleUnicode borderRight := by
  refine ⟨⟨by decide, ?_⟩, by decide, by decide, by decide, by decide, by decide⟩
  rintro ⟨fuel, out, h⟩
  simp only [say] at h
  rw [tile_stuck _ _ _ (by decide) fuel 0 _ (by decide)] at h
  simp at h

/-- C15 (amended): for every border style with positive top, bottom and
middle-fill widths and every sequence of lines, `say` terminates and writes
the top rule, the content rows each followed by its line break, and the bottom
rule, where the content row of every line whose width equals `maxWidth`
consists of the carry of the previous line (empty for the first line and after
a line without escape introducer), the left border glyph, exactly one
middle-fill glyph, the line's text, exactly one middle-fill glyph, the right
border glyph, and the reset sequence when the carry is not empty; the only row
of a single-line input of `n >= 0` columns is exactly left border, fill, text,
fill, right border; when the fill glyph and the line leave the width scan
outside an escape sequence, the interior fill, text, fill measures
`n + 2*fillWidth` columns; every other line's row has at least one fill glyph
after its text. -/
theorem C15_full_width_row (rw : Char → Int) (b : borderStyle) (lines : List (List Char))
    (w : List Char)
    (htl : 0 < widthANSI rw (b borderTop)) (hml : 0 < widthANSI rw (b borderMiddle))
    (hbl : 0 < widthANSI rw (b borderBottom)) :
    ∃ rows : List (List Char),
      (∃ n, ∀ fuel, n ≤ fuel →
        say rw fuel w b lines
          = some (w ++ topRule rw b lines ++ '\n' ::
              (joinRows rows ++ bottomRule rw b lines))) ∧
      rows.length = lines.length ∧
      (∀ i l, lines.get? i = some l → widthANSI rw l = maxWidth rw lines →
        rows.get? i
            = some (carryAt lines i ++ b borderLeft ++ b borderMiddle ++ l ++ b borderMiddle
                ++ b borderRight ++ (if carryAt lines i ≠ [] then resetSeq else [])) ∧
          (Closed rw (b borderMiddle) → Closed rw l →
            widthANSI rw (b borderMiddle ++ l ++ b borderMiddle)
              = widthANSI rw l + 2 * widthANSI rw (b borderMiddle))) ∧
      (∀ l, lines = [l] → 0 ≤ widthANSI rw l →
        rows = [b borderLeft ++ b borderMiddle ++ l ++ b borderMiddle ++ b borderRight]) ∧
      (∀ i l, lines.get? i = some l → widthANSI rw l ≠ maxWidth rw lines →
        ∃ k : Nat, 1 ≤ k ∧
          rows.get? i
            = some (carryAt lines i ++ b borderLeft ++ b borderMiddle ++ l
                ++ rep k (b borderMiddle)
                ++ b borderRight ++ (if carryAt lines i ≠ [] then resetSeq else []))) := by
  refine ⟨rowBodies rw b (maxWidth rw lines) (widthANSI rw (b borderMiddle)) lines [],
    ⟨sayFuel rw b lines, fun fuel hfuel => say_rows rw b lines htl hml hbl w fuel hfuel⟩,
    rowBodies_length _ _ _ _ _ _, ?_, ?_, ?_⟩
  · intro i l hi hw
    have e : maxWidth rw lines - (widthANSI rw l - widthANSI rw (b borderMiddle))
        = widthANSI rw (b borderMiddle) := by rw [hw]; ring
    constructor
    · rw [rowBodies_get rw b _ _ lines i l hi]
      simp only [rowBody, e, iters_self _ hml, rep, List.append_nil]
    · intro hM hl
      have := (meas_append rw _ _ _ _ (meas_append rw _ _ _ _ ⟨hM, rfl⟩ ⟨hl, rfl⟩)
        ⟨hM, rfl⟩).2
      rw [this]
      ring
  · intro l hl h0
    have hmax : maxWidth rw [l] = widthANSI rw l := by
      simp only [maxWidth, List.foldl_cons, List.foldl_nil]
      by_cases h : widthANSI rw l > 0
      · simp [h]
      · simp only [h, if_false]; omega
    have e : maxWidth rw [l] - (widthANSI rw l - widthANSI rw (b borderMiddle))
        = widthANSI rw (b borderMiddle) := by rw [hmax]; ring
    rw [hl]
    simp [rowBodies, rowBody, e, iters_self _ hml, rep]
  · intro i l hi _
    have hmem : l ∈ lines := List.get?_mem hi
    have hle := maxWidth_ge rw lines l hmem
    refine ⟨iters (maxWidth rw lines - (widthANSI rw l - widthANSI rw (b borderMiddle)))
        (widthANSI rw (b borderMiddle)),
      iters_pos _ _ hml (by omega), ?_⟩
    rw [rowBodies_get rw b _ _ lines i l hi]
    rfl

/-- Witness of C15 (amended): style `unicode`, lines `ESC [31mab`, `cd`, `x`,
every rune one column wide; the rows of `cd` and of `x` in the output of
`say`. -/
theorem C15_full_width_row_witness :
    (0 < widthANSI unitWidth (styleUnicode borderTop) ∧
      0 < widthANSI unitWidth (styleUnicode borderMiddle) ∧
      0 < widthANSI unitWidth (styleUnicode borderBottom)) ∧
    ∃ rows : List (List Char),
      (∃ n, ∀ fuel, n ≤ fuel →
        say unitWidth fuel [] styleUnicode [ESC :: "[31mab".toList, "cd".toList, "x".toList]
          = some ([] ++ topRule unitWidth styleUnicode
                [ESC :: "[31mab".toList, "cd".toList, "x".toList] ++ '\n' ::
              (joinRows rows ++ bottomRule unitWidth styleUnicode
                [ESC :: "[31mab".toList, "cd".toList, "x".toList]))) ∧
      rows.length = 3 ∧
      rows.get? 1 = some (ESC :: "[31m│ cd │".toList ++ ESC :: "[0m".toList) ∧
      ∃ k : Nat, 1 ≤ k ∧
        rows.get? 2 = some ("│ x".toList ++ rep k " ".toList ++ "│".toList) := by
  obtain ⟨rows, h1, h2, h3, _, h5⟩ := C15_full_width_row unitWidth styleUnicode
    [ESC :: "[31mab".toList, "cd".toList, "x".toList] [] (by decide) (by decide) (by decide)
  obtain ⟨k, hk, hr⟩ := h5 2 "x".toList (by decide) (by decide)
  have hc : carryAt [ESC :: "[31mab".toList, "cd".toList, "x".toList] 2 = [] := by decide
  refine ⟨by decide, rows, h1, h2, (h3 1 "cd".toList (by decide) (by decide)).1, k, hk, ?_⟩
  rw [hr, hc]
  simp [styleUnicode, mkStyle]

/-- C16: for every border style with positive top, bottom and middle-fill
widths and every sequence of lines, `say` terminates and writes the top rule,
the content rows each followed by its line break, and the bottom rule, where:
the row of the first line begins directly with the left border glyph and ends
with the right border glyph, without reset; the row of line `i + 1` begins with
`escCont` of line `i` followed by the left border glyph, and after its right
border glyph holds the reset sequence exactly when that carry is not empty; a
row that follows a line without escape introducer has neither prefix nor
reset, whatever the earlier lines are. -/
theorem C16_carry (rw : Char → Int) (b : borderStyle) (lines : List (List Char))
    (w : List Char)
    (htl : 0 < widthANSI rw (b borderTop)) (hml : 0 < widthANSI rw (b borderMiddle))
    (hbl : 0 < widthANSI rw (b borderBottom)) :
    ∃ rows : List (List Char),
      (∃ n, ∀ fuel, n ≤ fuel →
        say rw fuel w b lines
          = some (w ++ topRule rw b lines ++ '\n' ::
              (joinRows rows ++ bottomRule rw b lines))) ∧
      rows.length = lines.length ∧
      (∀ l, lines.get? 0 = some l →
        ∃ k : Nat, rows.get? 0
          = some (b borderLeft ++ b borderMiddle ++ l ++ rep k (b borderMiddle)
              ++ b borderRight)) ∧
      (∀ i prev l, lines.get? i = some prev → lines.get? (i + 1) = some l →
        ∃ k : Nat, rows.get? (i + 1)
          = some (escCont prev ++ b borderLeft ++ b borderMiddle ++ l
              ++ rep k (b borderMiddle) ++ b borderRight
              ++ (if escCont prev ≠ [] then resetSeq else []))) ∧
      (∀ i prev l, lines.get? i = some prev → lines.get? (i + 1) = some l → ESC ∉ prev →
        ∃ k : Nat, rows.get? (i + 1)
          = some (b borderLeft ++ b borderMiddle ++ l ++ rep k (b borderMiddle)
              ++ b borderRight)) := by
  refine ⟨rowBodies rw b (maxWidth rw lines) (widthANSI rw (b borderMiddle)) lines [],
    ⟨sayFuel rw b lines, fun fuel hfuel => say_rows rw b lines htl hml hbl w fuel hfuel⟩,
    rowBodies_length _ _ _ _ _ _, ?_, ?_, ?_⟩
  · intro l hl
    refine ⟨iters (maxWidth rw lines - (widthANSI rw l - widthANSI rw (b borderMiddle)))
      (widthANSI rw (b borderMiddle)), ?_⟩
    rw [rowBodies_head rw b _ _ lines [] l hl]
    simp [rowBody]
  · intro i prev l hp hl
    refine ⟨iters (maxWidth rw lines - (widthANSI rw l - widthANSI rw (b borderMiddle)))
      (widthANSI rw (b borderMiddle)), ?_⟩
    rw [rowBodies_succ rw b _ _ lines [] i prev l hp hl]
    rfl
  · intro i prev l hp hl he
    refine ⟨iters (maxWidth rw lines - (widthANSI rw l - widthANSI rw (b borderMiddle)))
      (widthANSI rw (b borderMiddle)), ?_⟩
    rw [rowBodies_succ rw b _ _ lines [] i prev l hp hl, escCont_plain prev he]
    simp [rowBody]

/-- Witness of C16: style `unicode`, lines `ESC [31mab`, `cd`, `x`, every rune
one column wide; the row of `cd` resumes `ESC [31m` and is reset, the row of
`x` has neither. -/
theorem C16_carry_witness :
    (0 < widthANSI unitWidth (styleUnicode borderTop) ∧
      0 < widthANSI unitWidth (styleUnicode borderMiddle) ∧
      0 < widthANSI unitWidth (styleUnicode borderBottom)) ∧
    ∃ rows : List (List Char),
      rows.length = 3 ∧
      (∃ k : Nat, rows.get? 1
        = some (ESC :: "[31m│ cd".toList ++ rep k " ".toList ++ "│".toList
            ++ ESC :: "[0m".toList)) ∧
      ∃ k : Nat, rows.get? 2 = some ("│ x".toList ++ rep k " ".toList ++ "│".toList) := by
  obtain ⟨rows, _, h2, _, h4, h5⟩ := C16_carry unitWidth styleUnicode
    [ESC :: "[31mab".toList, "cd".toList, "x".toList] [] (by decide) (by decide) (by decide)
  obtain ⟨k1, hr1⟩ := h4 0 (ESC :: "[31mab".toList) "cd".toList (by decide) (by decide)
  obtain ⟨k2, hr2⟩ := h5 1 "cd".toList "x".toList (by decide) (by decide) (by decide)
  have hc : escCont (ESC :: "[31mab".toList) = ESC :: "[31m".toList := by decide
  refine ⟨by decide, rows, h2, ⟨k1, ?_⟩, ⟨k2, ?_⟩⟩
  · rw [hr1, hc]
    simp [styleUnicode, mkStyle, resetSeq]
  · rw [hr2]
    simp [styleUnicode, mkStyle]

/-- C17: `escCont` returns the empty string for a line without escape
introducer; when `i` is the position of the last introducer and `j` the
position of the first `m` at or after `i`, it returns the substring from `i`
through `j` inclusive; when no `m` occurs at or after `i` it returns the
substring from `i` to the end of the line.  The result is empty, or a part of
the line that starts with the introducer, holds no further introducer, and
holds no `m` except possibly as its last character. -/
theorem C17_escCont_positions (s : List Char) :
    (ESC ∉ s → escCont s = []) ∧
    (∀ i, s.get? i = some ESC → (∀ j, i < j → s.get? j ≠ some ESC) →
      (∀ j, i ≤ j → s.get? j = some 'm' →
          (∀ j', i ≤ j' → j' < j → s.get? j' ≠ some 'm') →
            escCont s = (s.take (j + 1)).drop i) ∧
        ((∀ j, i ≤ j → s.get? j ≠ some 'm') → escCont s = s.drop i)) ∧
    (escCont s = [] ∨
      ∃ body pre post, escCont s = ESC :: body ∧ s = pre ++ escCont s ++ post ∧
        ESC ∉ body ∧ ('m' ∉ body ∨ ∃ body', body = body' ++ ['m'] ∧ 'm' ∉ body')) := by
  refine ⟨escCont_plain s, fun i hi hlast => ⟨fun j hij hj hfirst => ?_, fun hno => ?_⟩, ?_⟩
  · rw [escCont_at s i hi hlast]
    have e : j = i + (j - i) := by omega
    rw [takeThrough_take (s.drop i) (j - i) (by rw [get?_drop_add, ← e]; exact hj)
      (fun k' hk' => by
        rw [get?_drop_add]
        exact hfirst (i + k') (by omega) (by omega))]
    rw [List.take_drop]
    congr 2
    omega
  · rw [escCont_at s i hi hlast]
    apply takeThrough_open
    apply not_mem_of_get?
    intro k
    rw [get?_drop_add]
    exact hno (i + k) (by omega)
  · rcases escCont_cases s with ⟨e, _⟩ | ⟨p, t, e, hn, hc⟩
    · exact Or.inl e
    · right
      by_cases hm : 'm' ∈ t
      · obtain ⟨body', rest, hsplit, hfirst⟩ : ∃ body' rest, t = body' ++ 'm' :: rest ∧
            'm' ∉ body' := by
          clear hc hn e
          induction t with
          | nil => simp at hm
          | cons c cs ih =>
            by_cases hcm : c = 'm'
            · exact ⟨[], cs, by simp [hcm], by simp⟩
            · have hcs : 'm' ∈ cs := by
                rcases List.mem_cons.mp hm with h1 | h1
                · exact absurd h1.symm hcm
                · exact h1
              obtain ⟨b2, r2, e2, h2⟩ := ih hcs
              refine ⟨c :: b2, r2, by simp [e2], ?_⟩
              simp only [List.mem_cons, not_or]
              exact ⟨fun h => hcm h.symm, h2⟩
        have htt : takeThrough t = body' ++ ['m'] := by
          rw [hsplit, takeThrough_first rest body' hfirst]
        refine ⟨body' ++ ['m'], p, rest, by rw [hc, htt], ?_, ?_, Or.inr ⟨body', rfl, hfirst⟩⟩
        · rw [hc, htt, e, hsplit]
          simp [List.append_assoc]
        · intro hE
          apply hn
          rw [hsplit]
          simp only [List.mem_append, List.mem_singleton] at hE
          rcases hE with hE | hE
          · simp [hE]
          · exact absurd hE (by decide)
      · have htt : takeThrough t = t := takeThrough_open t hm
        refine ⟨t, p, [], by rw [hc, htt], ?_, hn, Or.inl hm⟩
        rw [hc, htt, e]
        simp

/-- Witness of C17: the line `ab ESC [1m c ESC [31mred` (last introducer at
position 8, first `m` after it at position 12) and the open line `ab ESC [3`. -/
theorem C17_escCont_positions_witness :
    escCont ("ab".toList ++ ESC :: "[1m c".toList ++ ESC :: "[31mred".toList)
      = ESC :: "[31m".toList ∧
    escCont ("ab".toList ++ ESC :: "[3".toList) = ESC :: "[3".toList :=
  ⟨((C17_escCont_positions
      ("ab".toList ++ ESC :: "[1m c".toList ++ ESC :: "[31mred".toList)).2.1 8
        (by decide) (fun j hj => by
          have h : ∀ k, k < 7 →
              ("ab".toList ++ ESC :: "[1m c".toList ++ ESC :: "[31mred".toList).get? (9 + k)
                ≠ some ESC := by decide
          by_cases hk : j < 16
          · have := h (j - 9) (by omega)
            rwa [show 9 + (j - 9) = j by omega] at this
          · rw [List.get?_eq_none.mpr (by simp; omega)]
            simp)).1 12 (by decide) (by decide) (fun j' h1 h2 => by
          have h : ∀ k, k < 4 →
              ("ab".toList ++ ESC :: "[1m c".toList ++ ESC :: "[31mred".toList).get? (8 + k)
                ≠ some 'm' := by decide
          have := h (j' - 8) (by omega)
          rwa [show 8 + (j' - 8) = j' by omega] at this) |>.trans (by decide),
    ((C17_escCont_positions ("ab".toList ++ ESC :: "[3".toList)).2.1 2
        (by decide) (fun j hj => by
          have h : ∀ k, k < 2 →
              ("ab".toList ++ ESC :: "[3".toList).get? (3 + k) ≠ some ESC := by decide
          by_cases hk : j < 5
          · have := h (j - 3) (by omega)
            rwa [show 3 + (j - 3) = j by omega] at this
          · rw [List.get?_eq_none.mpr (by simp; omega)]
            simp)).2 (fun j hj => by
          have h : ∀ k, k < 3 →
              ("ab".toList ++ ESC :: "[3".toList).get? (2 + k) ≠ some 'm' := by decide
          by_cases hk : j < 5
          · have := h (j - 2) (by omega)
            rwa [show 2 + (j - 2) = j by omega] at this
          · rw [List.get?_eq_none.mpr (by simp; omega)]
            simp) |>.trans (by decide)⟩

/-- C18: `widthANSI` counts nothing from an escape introducer up to and
including the next `m`, whatever stands in between: for `p` without escape
introducer and `rest` without `m`, the line `p ESC rest` measures as `p` (all
text after an unterminated introducer is hidden), and for every `rest'` the
line `p ESC rest m rest'` measures as `p` plus `rest'`. -/
theorem C18_escape_hidden (rw : Char → Int) (p rest rest' : List Char)
    (hp : ESC ∉ p) (hr : 'm' ∉ rest) :
    widthANSI rw (p ++ ESC :: rest) = widthANSI rw p ∧
    widthANSI rw (p ++ ESC :: (rest ++ 'm' :: rest'))
      = widthANSI rw p + widthANSI rw rest' := by
  have hpl := widthLoop_plain rw p hp 0
  have hpw : widthANSI rw p = 0 + (p.map (runeCols rw)).sum := by
    unfold widthANSI; rw [hpl]
  constructor
  · unfold widthANSI
    rw [widthLoop_append, hpl, widthLoop_cons, widthStep_esc, widthLoop_inside rw rest hr]
  · rw [hpw]
    unfold widthANSI
    rw [widthLoop_append, hpl, widthLoop_cons, widthStep_esc, widthLoop_append,
      widthLoop_inside rw rest hr, widthLoop_cons, widthStep_m, widthLoop_shift]

/-- Witness of C18: `ab`, then an introducer followed by `[31;1` and a second
introducer, then `m` and `cd`. -/
theorem C18_escape_hidden_witness :
    (ESC ∉ "ab".toList ∧ 'm' ∉ "[31;1".toList ++ [ESC]) ∧
    widthANSI unitWidth ("ab".toList ++ ESC :: ("[31;1".toList ++ [ESC])) = 2 ∧
    widthANSI unitWidth
      ("ab".toList ++ ESC :: (("[31;1".toList ++ [ESC]) ++ 'm' :: "cd".toList)) = 4 :=
  have h := C18_escape_hidden unitWidth "ab".toList ("[31;1".toList ++ [ESC]) "cd".toList
    (by decide) (by decide)
  ⟨by decide, h.1.trans (by decide), h.2.trans (by decide)⟩

/-- C19: for all eyes, tongue and pointer values, a template line that does
not start with `$the_cow`, `#` or `EOC` and holds none of the five tokens as a
substring is written by `tewi` unchanged, preceded by one line break; and for
every template `tewi` returns no error. -/
theorem C19_plain_line (w c eyes tongue line : List Char) (cow : List (List Char))
    (hc : isDirective c = false) (hno : ∀ k : Token, ¬ Token.text k <:+: c) :
    tewi w [c] eyes tongue line = w ++ '\n' :: c ∧
    (tewiErr w [c] eyes tongue line).1 = w ++ '\n' :: c ∧
    tewiErr w cow eyes tongue line = (tewi w cow eyes tongue line, none) := by
  have h1 : tewi w [c] eyes tongue line = w ++ '\n' :: c := by
    rw [tewi_eq]
    simp [hc, figure, replace, replaceAux_plain eyes tongue line c.length c (le_refl _) hno]
  have h2 : ∀ cow', tewiErr w cow' eyes tongue line = (tewi w cow' eyes tongue line, none) :=
    fun cow' => tewiWriteErr_eq _ _ _
  exact ⟨h1, by rw [h2, h1], h2 cow⟩

/-- Witness of C19: the line `  (oo)\_/` between two directive lines. -/
theorem C19_plain_line_witness :
    (isDirective "  (oo)\\_/".toList = false ∧
      ∀ k : Token, ¬ Token.text k <:+: "  (oo)\\_/".toList) ∧
    tewi [] ["  (oo)\\_/".toList] "xx".toList "U".toList "o".toList
      = "\n  (oo)\\_/".toList ∧
    tewiErr [] ["# cow".toList, "  (oo)\\_/".toList, "EOC".toList]
        "xx".toList "U".toList "o".toList
      = (tewi [] ["# cow".toList, "  (oo)\\_/".toList, "EOC".toList]
          "xx".toList "U".toList "o".toList, none) :=
  have hno : ∀ k : Token, ¬ Token.text k <:+: "  (oo)\\_/".toList := by
    intro k
    cases k <;> decide
  have h := C19_plain_line [] "  (oo)\\_/".toList "xx".toList "U".toList "o".toList
    ["# cow".toList, "  (oo)\\_/".toList, "EOC".toList] (by decide) hno
  ⟨⟨by decide, hno⟩, h.1, h.2.2⟩

/-- C20: the escape carry is invisible to the width measurer: for every line
`s`, `widthANSI (escCont s) = 0`, and the reset sequence measures 0; when the
carry holds its terminator `m`, a text with the carry before it and the reset
after it measures as the text alone. -/
theorem C20_carry_invisible (rw : Char → Int) (s x : List Char) :
    widthANSI rw (escCont s) = 0 ∧
    widthANSI rw resetSeq = 0 ∧
    ('m' ∈ escCont s →
      widthANSI rw (escCont s ++ x ++ resetSeq) = widthANSI rw x ∧
      widthANSI rw (escCont s ++ x) = widthANSI rw x) := by
  have hreset : ∀ (a : Bool) (w : Int), widthLoop rw (a, w) resetSeq = (false, w) := by
    intro a w
    exact widthLoop_escape rw "[0".toList (by decide) a w
  refine ⟨?_, (meas_resetSeq rw).2, fun hm => ?_⟩
  · rcases escCont_cases s with ⟨e, _⟩ | ⟨p, t, _, _, hc⟩
    · rw [e]; rfl
    · rw [hc]
      unfold widthANSI
      rw [widthLoop_cons, widthStep_esc]
      by_cases hmt : 'm' ∈ t
      · rw [widthLoop_takeThrough rw t hmt]
      · rw [takeThrough_open t hmt, widthLoop_inside rw t hmt]
  · have hclosed : Meas rw (escCont s) 0 := by
      rcases escCont_cases s with ⟨e, _⟩ | ⟨p, t, _, _, hc⟩
      · rw [e] at hm; simp at hm
      · rw [hc] at hm ⊢
        have hmt : 'm' ∈ t := by
          rcases List.mem_cons.mp hm with h1 | h1
          · exact absurd h1 (by decide)
          · exact takeThrough_mem t 'm' h1
        have hl : widthLoop rw (false, 0) (ESC :: takeThrough t) = (false, 0) := by
          rw [widthLoop_cons, widthStep_esc, widthLoop_takeThrough rw t hmt]
        constructor
        · unfold Closed; rw [hl]
        · unfold widthANSI; rw [hl]
    have hx : widthANSI rw (x ++ resetSeq) = widthANSI rw x := by
      unfold widthANSI
      rw [widthLoop_append]
      have := hreset (widthLoop rw (false, 0) x).1 (widthLoop rw (false, 0) x).2
      simp only [Prod.mk.eta] at this
      rw [this]
    constructor
    · rw [List.append_assoc, widthANSI_append rw _ _ hclosed.1, hclosed.2, hx]
      simp
    · rw [widthANSI_append rw _ _ hclosed.1, hclosed.2]
      simp

/-- Witness of C20: the carry of `ESC [31mred`, in front of `│ cd │`. -/
theorem C20_carry_invisible_witness :
    'm' ∈ escCont (ESC :: "[31mred".toList) ∧
    widthANSI unitWidth (escCont (ESC :: "[31mred".toList) ++ "│ cd │".toList ++ resetSeq)
      = widthANSI unitWidth "│ cd │".toList :=
  ⟨by decide,
    ((C20_carry_invisible unitWidth (ESC :: "[31mred".toList) "│ cd │".toList).2.2
      (by decide)).1⟩

end Tewisay
